import Mathlib

/-! Shallow embedding of the graph query engine of the reactsubjectviz
repository: the relationship queries, traversal engine, shortest-path
search and route-inspection functions operating on a list of directed
edges, together with proofs about them. -/

set_option linter.unusedVariables false

/-- An edge of the directed graph, as in the source. -/
structure DirectedEdge where
  source : Nat
  target : Nat
deriving DecidableEq

/-- JS `Array.from(new Set(values))`: deduplication keeping first
occurrences, written with an accumulator of the values already seen so
that the recursion is structural. -/
def uniqueAux (seen : List Nat) : List Nat → List Nat
  | [] => []
  | x :: xs => if x ∈ seen then uniqueAux seen xs else x :: uniqueAux (x :: seen) xs

/-- `uniqueNumbers` of the source: distinct values, first occurrences kept. -/
def uniqueNumbers (values : List Nat) : List Nat :=
  uniqueAux [] values

theorem mem_uniqueAux {l : List Nat} : ∀ {seen x}, x ∈ uniqueAux seen l ↔ x ∈ l ∧ x ∉ seen := by
  induction l with
  | nil => intro seen x; simp [uniqueAux]
  | cons y ys ih =>
    intro seen x
    by_cases hy : y ∈ seen
    · rw [uniqueAux, if_pos hy, ih]
      constructor
      · exact fun h => ⟨List.mem_cons_of_mem _ h.1, h.2⟩
      · rintro ⟨hm, hs⟩
        rcases List.mem_cons.mp hm with rfl | hm
        · exact absurd hy hs
        · exact ⟨hm, hs⟩
    · rw [uniqueAux, if_neg hy]
      constructor
      · intro h
        rcases List.mem_cons.mp h with rfl | h
        · exact ⟨List.mem_cons_self _ _, hy⟩
        · have hx := ih.mp h
          exact ⟨List.mem_cons_of_mem _ hx.1, fun hs => hx.2 (List.mem_cons_of_mem _ hs)⟩
      · rintro ⟨hm, hs⟩
        rcases List.mem_cons.mp hm with rfl | hm
        · exact List.mem_cons_self _ _
        · by_cases hxy : x = y
          · subst hxy; exact List.mem_cons_self _ _
          · exact List.mem_cons_of_mem _
              (ih.mpr ⟨hm, fun hc => (List.mem_cons.mp hc).elim hxy hs⟩)

theorem mem_uniqueNumbers {l : List Nat} {x : Nat} : x ∈ uniqueNumbers l ↔ x ∈ l := by
  simp [uniqueNumbers, mem_uniqueAux]

theorem nodup_uniqueAux {l : List Nat} : ∀ {seen}, (uniqueAux seen l).Nodup := by
  induction l with
  | nil => intro seen; simp [uniqueAux]
  | cons y ys ih =>
    intro seen
    by_cases hy : y ∈ seen
    · rw [uniqueAux, if_pos hy]; exact ih
    · rw [uniqueAux, if_neg hy]
      refine List.nodup_cons.mpr ⟨fun hc => ?_, ih⟩
      exact (mem_uniqueAux.mp hc).2 (List.mem_cons_self _ _)

theorem nodup_uniqueNumbers {l : List Nat} : (uniqueNumbers l).Nodup :=
  nodup_uniqueAux

theorem length_uniqueAux_le {l : List Nat} : ∀ {seen}, (uniqueAux seen l).length ≤ l.length := by
  induction l with
  | nil => intro seen; simp [uniqueAux]
  | cons y ys ih =>
    intro seen
    by_cases hy : y ∈ seen
    · rw [uniqueAux, if_pos hy]; exact Nat.le_succ_of_le ih
    · rw [uniqueAux, if_neg hy]; simpa using ih

theorem length_uniqueNumbers_le {l : List Nat} : (uniqueNumbers l).length ≤ l.length :=
  length_uniqueAux_le

/-- `parents` of the main module: distinct sources of edges into `id`. -/
def parents (id : Nat) (edges : List DirectedEdge) : List Nat :=
  uniqueNumbers ((edges.filter fun e => e.target == id).map fun e => e.source)

/-- `children` of the main module: distinct targets of edges out of `id`. -/
def children (id : Nat) (edges : List DirectedEdge) : List Nat :=
  uniqueNumbers ((edges.filter fun e => e.source == id).map fun e => e.target)

/-- One directed edge from `a` to `b` exists in the edge list. -/
def edgeStep (edges : List DirectedEdge) (a b : Nat) : Prop :=
  ∃ e ∈ edges, e.source = a ∧ e.target = b

instance (edges : List DirectedEdge) (a b : Nat) : Decidable (edgeStep edges a b) :=
  decidable_of_iff ((edges.any fun e => e.source == a && e.target == b) = true) (by
    simp [edgeStep, List.any_eq_true, Bool.and_eq_true, beq_iff_eq])

theorem mem_parents {id : Nat} {edges : List DirectedEdge} {p : Nat} :
    p ∈ parents id edges ↔ edgeStep edges p id := by
  simp only [parents, mem_uniqueNumbers, List.mem_map, List.mem_filter, beq_iff_eq, edgeStep]
  constructor
  · rintro ⟨e, ⟨he, ht⟩, hs⟩
    exact ⟨e, he, hs, ht⟩
  · rintro ⟨e, he, hs, ht⟩
    exact ⟨e, ⟨he, ht⟩, hs⟩

theorem mem_children {id : Nat} {edges : List DirectedEdge} {c : Nat} :
    c ∈ children id edges ↔ edgeStep edges id c := by
  simp only [children, mem_uniqueNumbers, List.mem_map, List.mem_filter, beq_iff_eq, edgeStep]
  constructor
  · rintro ⟨e, ⟨he, hs⟩, ht⟩
    exact ⟨e, he, hs, ht⟩
  · rintro ⟨e, he, hs, ht⟩
    exact ⟨e, ⟨he, hs⟩, ht⟩

/-- The vertices occurring as a source of some edge. -/
def sourcesFin (edges : List DirectedEdge) : Finset Nat :=
  (edges.map fun e => e.source).toFinset

/-- The vertices occurring as a target of some edge. -/
def targetsFin (edges : List DirectedEdge) : Finset Nat :=
  (edges.map fun e => e.target).toFinset

/-- All vertices occurring in some edge. -/
def univFin (edges : List DirectedEdge) : Finset Nat :=
  sourcesFin edges ∪ targetsFin edges

theorem parents_mem_sourcesFin (edges : List DirectedEdge) :
    ∀ v, ∀ x ∈ parents v edges, x ∈ sourcesFin edges := by
  intro v x hx
  rcases mem_parents.mp hx with ⟨e, he, hs, _⟩
  simp only [sourcesFin, List.mem_toFinset, List.mem_map]
  exact ⟨e, he, hs⟩

theorem children_mem_targetsFin (edges : List DirectedEdge) :
    ∀ v, ∀ x ∈ children v edges, x ∈ targetsFin edges := by
  intro v x hx
  rcases mem_children.mp hx with ⟨e, he, _, ht⟩
  simp only [targetsFin, List.mem_toFinset, List.mem_map]
  exact ⟨e, he, ht⟩

/-- JS `Set.prototype.add` on a set kept as an insertion-ordered list. -/
def addOnce (l : List Nat) (x : Nat) : List Nat :=
  if x ∈ l then l else l ++ [x]

theorem mem_addOnce {l : List Nat} {x y : Nat} : y ∈ addOnce l x ↔ y ∈ l ∨ y = x := by
  by_cases h : x ∈ l
  · simp only [addOnce, if_pos h]
    constructor
    · exact Or.inl
    · rintro (hy | rfl)
      · exact hy
      · exact h
  · simp [addOnce, if_neg h]

theorem toFinset_addOnce {l : List Nat} {x : Nat} :
    (addOnce l x).toFinset = insert x l.toFinset := by
  ext y
  simp [mem_addOnce, or_comm]

theorem nodup_addOnce {l : List Nat} {x : Nat} (h : l.Nodup) : (addOnce l x).Nodup := by
  by_cases hx : x ∈ l
  · simpa [addOnce, hx] using h
  · simp only [addOnce, if_neg hx]
    simpa [List.nodup_append] using ⟨h, hx⟩

theorem dropLast_append_getLastQ {α : Type} {l : List α} {x : α} (h : l.getLast? = some x) :
    l.dropLast ++ [x] = l := by
  induction l with
  | nil => simp at h
  | cons a t ih =>
    cases t with
    | nil =>
      simp only [List.getLast?_singleton, Option.some.injEq] at h
      simp [h]
    | cons b t2 =>
      have h2 : (b :: t2).getLast? = some x := by
        simpa [List.getLast?_cons_cons] using h
      have := ih h2
      simpa [List.dropLast_cons₂] using this

theorem mem_of_getLastQ {α : Type} {l : List α} {x : α} (h : l.getLast? = some x) : x ∈ l := by
  rw [← dropLast_append_getLastQ h]
  simp

/-- The worklist loop that the `ancestors` and `descendants` functions of the
main module share: pop a vertex off the end of the queue, record it in the
accumulated set (kept as an insertion-ordered duplicate-free list), and push
its not-yet-recorded neighbours.  `U` bounds the neighbour function so that
the loop terminates; `ancestors` uses `parents` as neighbours and
`descendants` uses `children`. -/
def worklistLoop (nbrs : Nat → List Nat) (U : Finset Nat)
    (hU : ∀ v, ∀ x ∈ nbrs v, x ∈ U) (queue : List Nat) (acc : List Nat) : List Nat :=
  match hq : queue.getLast? with
  | none => acc
  | some nextId =>
    worklistLoop nbrs U hU
      (queue.dropLast ++ ((nbrs nextId).filter fun p => decide (p ∉ addOnce acc nextId)))
      (addOnce acc nextId)
termination_by (((U ∪ queue.toFinset) \ acc.toFinset).card,
  (queue.filter fun q => decide (q ∈ acc)).length)
decreasing_by
  have hsplit : queue.dropLast ++ [nextId] = queue := dropLast_append_getLastQ hq
  have hmemq : nextId ∈ queue := mem_of_getLastQ hq
  by_cases hmem : nextId ∈ acc
  · have hacc : addOnce acc nextId = acc := by simp [addOnce, hmem]
    rw [hacc]
    have hfin : ((U ∪ (queue.dropLast ++
          ((nbrs nextId).filter fun p => decide (p ∉ acc))).toFinset) \ acc.toFinset)
        = ((U ∪ queue.toFinset) \ acc.toFinset) := by
      ext x
      simp only [Finset.mem_sdiff, Finset.mem_union, List.mem_toFinset, List.mem_append,
        List.mem_filter, decide_eq_true_eq]
      constructor
      · rintro ⟨hx, hxa⟩
        refine ⟨?_, hxa⟩
        rcases hx with hx | hx | ⟨hx, _⟩
        · exact Or.inl hx
        · exact Or.inr (by rw [← hsplit]; exact List.mem_append_left _ hx)
        · exact Or.inl (hU _ _ hx)
      · rintro ⟨hx, hxa⟩
        refine ⟨?_, hxa⟩
        rcases hx with hx | hx
        · exact Or.inl hx
        · rw [← hsplit] at hx
          rcases List.mem_append.mp hx with hx | hx
          · exact Or.inr (Or.inl hx)
          · simp only [List.mem_singleton] at hx
            subst hx
            exact absurd hmem hxa
    rw [hfin]
    apply Prod.Lex.right
    have h1 : (queue.filter fun q => decide (q ∈ acc))
        = (queue.dropLast.filter fun q => decide (q ∈ acc)) ++ [nextId] := by
      conv_lhs => rw [← hsplit]
      rw [List.filter_append]
      simp [hmem]
    have h2 : (((nbrs nextId).filter fun p => decide (p ∉ acc)).filter
        fun q => decide (q ∈ acc)) = [] := by
      rw [List.filter_eq_nil_iff]
      intro a ha
      simp only [List.mem_filter, decide_eq_true_eq] at ha
      simp [ha.2]
    rw [List.filter_append, h2, List.append_nil, h1]
    simp
  · apply Prod.Lex.left
    apply Finset.card_lt_card
    rw [toFinset_addOnce]
    rw [Finset.ssubset_iff_of_subset]
    · refine ⟨nextId, ?_, ?_⟩
      · exact Finset.mem_sdiff.mpr ⟨Finset.mem_union_right _ (List.mem_toFinset.mpr hmemq),
          fun hc => hmem (List.mem_toFinset.mp hc)⟩
      · intro hc
        exact (Finset.mem_sdiff.mp hc).2 (Finset.mem_insert_self _ _)
    · intro x hx
      rcases Finset.mem_sdiff.mp hx with ⟨hx1, hx2⟩
      refine Finset.mem_sdiff.mpr ⟨?_, fun hc => hx2 (Finset.mem_insert_of_mem hc)⟩
      rcases Finset.mem_union.mp hx1 with hx1 | hx1
      · exact Finset.mem_union_left _ hx1
      · rcases List.mem_append.mp (List.mem_toFinset.mp hx1) with hx1 | hx1
        · refine Finset.mem_union_right _ (List.mem_toFinset.mpr ?_)
          rw [← hsplit]
          exact List.mem_append_left _ hx1
        · rcases List.mem_filter.mp hx1 with ⟨hx1, _⟩
          exact Finset.mem_union_left _ (hU _ _ hx1)

/-- `ancestors` of the main module: worklist transitive closure of `parents`,
with the accumulated JS `Set` kept as an insertion-ordered list. -/
def ancestors (id : Nat) (edges : List DirectedEdge) : List Nat :=
  worklistLoop (fun v => parents v edges) (sourcesFin edges)
    (parents_mem_sourcesFin edges) (parents id edges) []

/-- `descendants` of the main module: worklist transitive closure of `children`. -/
def descendants (id : Nat) (edges : List DirectedEdge) : List Nat :=
  worklistLoop (fun v => children v edges) (targetsFin edges)
    (children_mem_targetsFin edges) (children id edges) []

/-- `descendantsAndSelf` of the main module. -/
def descendantsAndSelf (id : Nat) (edges : List DirectedEdge) : List Nat :=
  uniqueNumbers ([id] ++ descendants id edges)

/-- `parentsAndSelf` of the main module. -/
def parentsAndSelf (id : Nat) (edges : List DirectedEdge) : List Nat :=
  uniqueNumbers ([id] ++ parents id edges)

/-- `siblings` of the main module: children of parents, minus `id`. -/
def siblings (id : Nat) (edges : List DirectedEdge) : List Nat :=
  uniqueNumbers (((parents id edges).flatMap fun parent => children parent edges).filter
    fun child => child != id)

/-- `cousins` of the main module: descendants of siblings. -/
def cousins (id : Nat) (edges : List DirectedEdge) : List Nat :=
  uniqueNumbers ((siblings id edges).flatMap fun sibling => descendants sibling edges)

/-- `related` of the main module: ancestors together with descendants. -/
def related (id : Nat) (edges : List DirectedEdge) : List Nat :=
  uniqueNumbers (ancestors id edges ++ descendants id edges)

/-- `relatedAndSelf` of the main module. -/
def relatedAndSelf (id : Nat) (edges : List DirectedEdge) : List Nat :=
  uniqueNumbers (related id edges ++ [id])

/-- `ancestorsAndSelf` of the main module. -/
def ancestorsAndSelf (id : Nat) (edges : List DirectedEdge) : List Nat :=
  uniqueNumbers (ancestors id edges ++ [id])

/-- `cousinsAndSelf` of the main module. -/
def cousinsAndSelf (id : Nat) (edges : List DirectedEdge) : List Nat :=
  uniqueNumbers (cousins id edges ++ [id])

/-- `siblingsAndSelf` of the main module. -/
def siblingsAndSelf (id : Nat) (edges : List DirectedEdge) : List Nat :=
  uniqueNumbers (siblings id edges ++ [id])

/-- `childrenAndSelf` of the main module. -/
def childrenAndSelf (id : Nat) (edges : List DirectedEdge) : List Nat :=
  uniqueNumbers (children id edges ++ [id])

/-- `everything` of the main module: all vertices appearing in some edge. -/
def everything (edges : List DirectedEdge) : List Nat :=
  uniqueNumbers (edges.flatMap fun e => [e.source, e.target])

/-- `isolatedNodes` of the main module: vertices whose `related` set is empty. -/
def isolatedNodes (edges : List DirectedEdge) : List Nat :=
  uniqueNumbers ((everything edges).filter fun id => (related id edges).length == 0)

/-- A strategy to traverse a directed graph: the `Traversal` type of the source. -/
inductive Traversal
  | web
  | ancestors
  | descendants
  | tree
deriving DecidableEq

/-- Processing of one edge inside a pass of the fixed-point sweep of
`traverse`: first the ancestors/web rule (add the source of an edge that
points to a visited vertex), then, against the set just updated, the
descendants/web rule (add the target of an edge that leaves a visited
vertex). -/
def sweepStep (mode : Traversal) (visited : Finset Nat) (edge : DirectedEdge) : Finset Nat :=
  let v1 := if (mode = Traversal.ancestors ∨ mode = Traversal.web) ∧
      edge.source ∉ visited ∧ edge.target ∈ visited
    then insert edge.source visited else visited
  if (mode = Traversal.descendants ∨ mode = Traversal.web) ∧
      edge.target ∉ v1 ∧ edge.source ∈ v1
  then insert edge.target v1 else v1

/-- One full scan of the edge list by the sweep of `traverse`. -/
def sweepOnce (mode : Traversal) (edges : List DirectedEdge) (visited : Finset Nat) : Finset Nat :=
  edges.foldl (sweepStep mode) visited

theorem subset_sweepStep {mode : Traversal} {visited : Finset Nat} {edge : DirectedEdge} :
    visited ⊆ sweepStep mode visited edge := by
  intro x hx
  unfold sweepStep
  dsimp only
  split <;> split <;> (try simp only [Finset.mem_insert]) <;> tauto

theorem sweepStep_subset {mode : Traversal} {visited : Finset Nat} {edge : DirectedEdge} :
    sweepStep mode visited edge ⊆ insert edge.source (insert edge.target visited) := by
  intro x hx
  unfold sweepStep at hx
  dsimp only at hx
  split at hx <;> split at hx <;> (try simp only [Finset.mem_insert] at hx) <;> simp only [Finset.mem_insert] <;> tauto

theorem source_mem_univFin {edges : List DirectedEdge} {e : DirectedEdge} (he : e ∈ edges) :
    e.source ∈ univFin edges := by
  refine Finset.mem_union_left _ ?_
  simp only [sourcesFin, List.mem_toFinset, List.mem_map]
  exact ⟨e, he, rfl⟩

theorem target_mem_univFin {edges : List DirectedEdge} {e : DirectedEdge} (he : e ∈ edges) :
    e.target ∈ univFin edges := by
  refine Finset.mem_union_right _ ?_
  simp only [targetsFin, List.mem_toFinset, List.mem_map]
  exact ⟨e, he, rfl⟩

theorem subset_foldl_sweepStep {mode : Traversal} :
    ∀ (l : List DirectedEdge) (visited : Finset Nat),
      visited ⊆ l.foldl (sweepStep mode) visited := by
  intro l
  induction l with
  | nil => intro visited; simp [List.foldl]
  | cons e t ih =>
    intro visited
    exact fun x hx => ih (sweepStep mode visited e) (subset_sweepStep hx)

theorem subset_sweepOnce {mode : Traversal} {edges : List DirectedEdge} {visited : Finset Nat} :
    visited ⊆ sweepOnce mode edges visited :=
  subset_foldl_sweepStep edges visited

theorem foldl_sweepStep_subset {mode : Traversal} {edges : List DirectedEdge} :
    ∀ (l : List DirectedEdge) (visited : Finset Nat), (∀ e ∈ l, e ∈ edges) →
      l.foldl (sweepStep mode) visited ⊆ visited ∪ univFin edges := by
  intro l
  induction l with
  | nil => intro visited _; simp [List.foldl]
  | cons e t ih =>
    intro visited hl
    intro x hx
    have h1 := ih (sweepStep mode visited e) (fun f hf => hl f (List.mem_cons_of_mem _ hf)) hx
    rcases Finset.mem_union.mp h1 with h1 | h1
    · have h2 := sweepStep_subset h1
      rcases Finset.mem_insert.mp h2 with rfl | h2
      · exact Finset.mem_union_right _ (source_mem_univFin (hl e (List.mem_cons_self _ _)))
      · rcases Finset.mem_insert.mp h2 with rfl | h2
        · exact Finset.mem_union_right _ (target_mem_univFin (hl e (List.mem_cons_self _ _)))
        · exact Finset.mem_union_left _ h2
    · exact Finset.mem_union_right _ h1

theorem sweepOnce_subset {mode : Traversal} {edges : List DirectedEdge} {visited : Finset Nat} :
    sweepOnce mode edges visited ⊆ visited ∪ univFin edges :=
  foldl_sweepStep_subset edges visited (fun _ he => he)

/-- The `while (running)` loop of `traverse` for the non-tree modes: run full
scans of the edge list until a scan adds nothing. -/
def sweepLoop (mode : Traversal) (edges : List DirectedEdge) (visited : Finset Nat) : Finset Nat :=
  if sweepOnce mode edges visited = visited then visited
  else sweepLoop mode edges (sweepOnce mode edges visited)
termination_by (univFin edges \ visited).card
decreasing_by
  rename_i hne
  apply Finset.card_lt_card
  have hsub : visited ⊂ sweepOnce mode edges visited :=
    Finset.ssubset_iff_subset_ne.mpr ⟨subset_sweepOnce, fun h => hne h.symm⟩
  rcases Finset.exists_of_ssubset hsub with ⟨x, hx1, hx2⟩
  have hxu : x ∈ univFin edges := by
    rcases Finset.mem_union.mp (sweepOnce_subset hx1) with h | h
    · exact absurd h hx2
    · exact h
  rw [Finset.ssubset_iff_of_subset]
  · exact ⟨x, Finset.mem_sdiff.mpr ⟨hxu, hx2⟩, fun hc => (Finset.mem_sdiff.mp hc).2 hx1⟩
  · exact Finset.sdiff_subset_sdiff (le_refl _) hsub.subset

/-- `traverse` of the source: fixed-point sweep starting from `{id}` for the
modes `ancestors`, `descendants` and `web`, with `id` removed at the end;
`tree` is `id` together with the `ancestors` and `descendants` traversals. -/
def traverse (id : Nat) (edges : List DirectedEdge) (mode : Traversal) : Finset Nat :=
  if h : mode = Traversal.tree then
    insert id (traverse id edges Traversal.ancestors ∪ traverse id edges Traversal.descendants)
  else
    (sweepLoop mode edges {id}).erase id
termination_by (if mode = Traversal.tree then 1 else 0)
decreasing_by
  · subst h; decide
  · subst h; decide

/-- JS `path[path.length - 1]`.  Queue entries always carry a nonempty
path, so the default value is never read. -/
def lastId (p : List Nat) : Nat :=
  p.getLastD 0

theorem lastId_append {p : List Nat} {c : Nat} : lastId (p ++ [c]) = c := by
  simp [lastId, List.getLastD_concat]

/-- The final vertices of the paths held in a priority queue. -/
def lastsFin (queue : List (Nat × List Nat)) : Finset Nat :=
  (queue.map fun en => lastId en.2).toFinset

/-- JS `PriorityQueue.enqueue`: a push followed by a stable sort on the
first component.  On a queue that is already sorted by its first component
this places the new entry directly after all entries of smaller or equal
key, which is the ordered insertion below. -/
def pqInsert (e : Nat × List Nat) : List (Nat × List Nat) → List (Nat × List Nat)
  | [] => [e]
  | x :: xs => if x.1 ≤ e.1 then x :: pqInsert e xs else e :: x :: xs

theorem length_pqInsert {e : Nat × List Nat} : ∀ {q}, (pqInsert e q).length = q.length + 1 := by
  intro q
  induction q with
  | nil => simp [pqInsert]
  | cons x xs ih => by_cases h : x.1 ≤ e.1 <;> simp [pqInsert, h, ih]

theorem mem_pqInsert {e x : Nat × List Nat} : ∀ {q}, x ∈ pqInsert e q ↔ x = e ∨ x ∈ q := by
  intro q
  induction q with
  | nil => simp [pqInsert]
  | cons y ys ih => by_cases h : y.1 ≤ e.1 <;> simp [pqInsert, h, ih] <;> tauto

theorem length_foldl_pqInsert {f : Nat → Nat × List Nat} :
    ∀ (cs : List Nat) (q : List (Nat × List Nat)),
      (cs.foldl (fun q c => pqInsert (f c) q) q).length = q.length + cs.length := by
  intro cs
  induction cs with
  | nil => intro q; simp
  | cons c cs ih =>
    intro q
    rw [List.foldl_cons, ih, length_pqInsert]
    simp only [List.length_cons]
    omega

theorem mem_foldl_pqInsert {f : Nat → Nat × List Nat} :
    ∀ (cs : List Nat) (q : List (Nat × List Nat)) (x : Nat × List Nat),
      x ∈ cs.foldl (fun q c => pqInsert (f c) q) q ↔ x ∈ q ∨ ∃ c ∈ cs, x = f c := by
  intro cs
  induction cs with
  | nil => intro q x; simp
  | cons c cs ih =>
    intro q x
    rw [List.foldl_cons, ih, mem_pqInsert]
    constructor
    · rintro ((rfl | hq) | ⟨c2, hc2, rfl⟩)
      · exact Or.inr ⟨c, List.mem_cons_self _ _, rfl⟩
      · exact Or.inl hq
      · exact Or.inr ⟨c2, List.mem_cons_of_mem _ hc2, rfl⟩
    · rintro (hq | ⟨c2, hc2, rfl⟩)
      · exact Or.inl (Or.inr hq)
      · rcases List.mem_cons.mp hc2 with rfl | hc2
        · exact Or.inl (Or.inl rfl)
        · exact Or.inr ⟨c2, hc2, rfl⟩

theorem children_length_le {id : Nat} {edges : List DirectedEdge} :
    (children id edges).length ≤ edges.length :=
  le_trans length_uniqueNumbers_le (by simpa using List.length_filter_le _ edges)

/-- The loop of `dijkstraShortestPath`: dequeue the entry of least
distance; return its path when it ends at the target; skip it when its
final vertex was already expanded; otherwise expand that vertex, pushing
one extended path per child. -/
def dijkstraAux (edges : List DirectedEdge) (target : Nat) (visited : Finset Nat) :
    List (Nat × List Nat) → List Nat
  | [] => []
  | (d, path) :: rest =>
    if lastId path = target then path
    else if lastId path ∈ visited then dijkstraAux edges target visited rest
    else
      dijkstraAux edges target (insert (lastId path) visited)
        ((children (lastId path) edges).foldl (fun q c => pqInsert (d + 1, path ++ [c]) q) rest)
termination_by queue => (((univFin edges ∪ lastsFin queue) \ visited).card, queue.length)
decreasing_by
  · have hsub : ((univFin edges ∪ lastsFin rest) \ visited)
        ⊆ ((univFin edges ∪ lastsFin ((d, path) :: rest)) \ visited) := by
      intro x hx
      rcases Finset.mem_sdiff.mp hx with ⟨hx1, hx2⟩
      refine Finset.mem_sdiff.mpr ⟨?_, hx2⟩
      rcases Finset.mem_union.mp hx1 with h | h
      · exact Finset.mem_union_left _ h
      · refine Finset.mem_union_right _ ?_
        simp only [lastsFin, List.mem_toFinset, List.mem_map] at h ⊢
        rcases h with ⟨en, hen, he⟩
        exact ⟨en, List.mem_cons_of_mem _ hen, he⟩
    rcases eq_or_lt_of_le (Finset.card_le_card hsub) with heq | hlt
    · rw [heq]
      exact Prod.Lex.right _ (by simp)
    · exact Prod.Lex.left _ _ hlt
  · rename_i ht hv
    apply Prod.Lex.left
    apply Finset.card_lt_card
    rw [Finset.ssubset_iff_of_subset]
    · refine ⟨lastId path, Finset.mem_sdiff.mpr ⟨?_, hv⟩, ?_⟩
      · refine Finset.mem_union_right _ ?_
        simp only [lastsFin, List.mem_toFinset, List.mem_map]
        exact ⟨(d, path), List.mem_cons_self _ _, rfl⟩
      · intro hc
        exact (Finset.mem_sdiff.mp hc).2 (Finset.mem_insert_self _ _)
    · intro x hx
      rcases Finset.mem_sdiff.mp hx with ⟨hx1, hx2⟩
      refine Finset.mem_sdiff.mpr ⟨?_, fun hc => hx2 (Finset.mem_insert_of_mem hc)⟩
      rcases Finset.mem_union.mp hx1 with h | h
      · exact Finset.mem_union_left _ h
      · simp only [lastsFin, List.mem_toFinset, List.mem_map] at h
        rcases h with ⟨en, hen, he⟩
        rcases (mem_foldl_pqInsert _ _ _).mp hen with hen | ⟨c, hc, rfl⟩
        · refine Finset.mem_union_right _ ?_
          simp only [lastsFin, List.mem_toFinset, List.mem_map]
          exact ⟨en, List.mem_cons_of_mem _ hen, he⟩
        · rw [← he, lastId_append]
          exact Finset.mem_union_left _
            (Finset.mem_union_right _ (children_mem_targetsFin edges _ _ hc))

/-- `dijkstraShortestPath` of the source. -/
def dijkstraShortestPath (source target : Nat) (edges : List DirectedEdge) : List Nat :=
  dijkstraAux edges target ∅ [(0, [source])]

/-- The odd-degree vertices computed inside `postman`. -/
def oddNodes (edges : List DirectedEdge) : List Nat :=
  (everything edges).filter fun id => (related id edges).length % 2 == 1

/-- The ordered pairs of distinct odd-degree vertices built inside `postman`. -/
def oddPairs (edges : List DirectedEdge) : List (Nat × Nat) :=
  (oddNodes edges).flatMap fun id =>
    ((oddNodes edges).filter fun otherId => otherId != id).map fun otherId => (id, otherId)

/-- `postman` of the source: one shortest path per ordered pair of distinct
odd-degree vertices. -/
def postman (edges : List DirectedEdge) : List (List Nat) :=
  (oddPairs edges).map fun p => dijkstraShortestPath p.1 p.2 edges

theorem worklistLoop_nil {nbrs : Nat → List Nat} {U : Finset Nat}
    {hU : ∀ v, ∀ x ∈ nbrs v, x ∈ U} {queue acc : List Nat}
    (h : queue.getLast? = none) : worklistLoop nbrs U hU queue acc = acc := by
  rw [worklistLoop]
  split
  · rfl
  · rename_i y hy
    rw [h] at hy
    cases hy

theorem worklistLoop_cons {nbrs : Nat → List Nat} {U : Finset Nat}
    {hU : ∀ v, ∀ x ∈ nbrs v, x ∈ U} {queue acc : List Nat} {nextId : Nat}
    (h : queue.getLast? = some nextId) :
    worklistLoop nbrs U hU queue acc = worklistLoop nbrs U hU
      (queue.dropLast ++ ((nbrs nextId).filter fun p => decide (p ∉ addOnce acc nextId)))
      (addOnce acc nextId) := by
  rw [worklistLoop]
  split
  · rename_i hy
    rw [h] at hy
    cases hy
  · rename_i y hy
    rw [h] at hy
    cases hy
    rfl

theorem worklistLoop_subset (nbrs : Nat → List Nat) (U : Finset Nat)
    (hU : ∀ v, ∀ x ∈ nbrs v, x ∈ U) :
    ∀ queue acc, ∀ x ∈ worklistLoop nbrs U hU queue acc, x ∈ acc ∨ x ∈ queue ∨ x ∈ U := by
  intro queue acc
  induction queue, acc using worklistLoop.induct nbrs U hU with
  | case1 queue acc hq =>
    intro x hx
    rw [worklistLoop_nil hq] at hx
    exact Or.inl hx
  | case2 queue acc nextId hq ih =>
    intro x hx
    rw [worklistLoop_cons hq] at hx
    rcases ih x hx with h | h | h
    · rcases mem_addOnce.mp h with h | rfl
      · exact Or.inl h
      · exact Or.inr (Or.inl (mem_of_getLastQ hq))
    · rcases List.mem_append.mp h with h | h
      · exact Or.inr (Or.inl (List.dropLast_subset _ h))
      · exact Or.inr (Or.inr (hU _ _ (List.mem_filter.mp h).1))
    · exact Or.inr (Or.inr h)

theorem ancestors_subset_sources {id : Nat} {edges : List DirectedEdge} :
    ∀ x ∈ ancestors id edges, x ∈ sourcesFin edges := by
  intro x hx
  rcases worklistLoop_subset _ _ _ _ _ x hx with h | h | h
  · exact absurd h (List.not_mem_nil x)
  · exact parents_mem_sourcesFin edges id x h
  · exact h

theorem descendants_subset_targets {id : Nat} {edges : List DirectedEdge} :
    ∀ x ∈ descendants id edges, x ∈ targetsFin edges := by
  intro x hx
  rcases worklistLoop_subset _ _ _ _ _ x hx with h | h | h
  · exact absurd h (List.not_mem_nil x)
  · exact children_mem_targetsFin edges id x h
  · exact h

theorem related_mem_univFin {id x : Nat} {edges : List DirectedEdge}
    (hx : x ∈ related id edges) : x ∈ univFin edges := by
  rcases List.mem_append.mp (mem_uniqueNumbers.mp hx) with h | h
  · exact Finset.mem_union_left _ (ancestors_subset_sources _ h)
  · exact Finset.mem_union_right _ (descendants_subset_targets _ h)

/-- The inner `for (const child of children)` loop of `hasCycle`: scan the
`related` vertices of the vertex just popped; report a cycle (`none`) when
one of them is still on the stack, otherwise append the unvisited ones to
the end of the stack. -/
def addChildren (visited : Finset Nat) (stack : List Nat) : List Nat → Option (List Nat)
  | [] => some stack
  | c :: cs =>
    if c ∈ stack then none
    else if c ∈ visited then addChildren visited stack cs
    else addChildren visited (stack ++ [c]) cs

theorem addChildren_sound {visited : Finset Nat} :
    ∀ {cs stack stackNew : List Nat}, addChildren visited stack cs = some stackNew →
      ∀ v ∈ stackNew, v ∈ stack ∨ v ∈ cs := by
  intro cs
  induction cs with
  | nil =>
    intro stack stackNew h v hv
    simp only [addChildren, Option.some.injEq] at h
    subst h
    exact Or.inl hv
  | cons c cs ih =>
    intro stack stackNew h v hv
    by_cases hc : c ∈ stack
    · simp [addChildren, hc] at h
    · by_cases hcv : c ∈ visited
      · simp only [addChildren, if_neg hc, if_pos hcv] at h
        rcases ih h v hv with h2 | h2
        · exact Or.inl h2
        · exact Or.inr (List.mem_cons_of_mem _ h2)
      · simp only [addChildren, if_neg hc, if_neg hcv] at h
        rcases ih h v hv with h2 | h2
        · rcases List.mem_append.mp h2 with h2 | h2
          · exact Or.inl h2
          · rcases List.mem_singleton.mp h2 with rfl
            exact Or.inr (List.mem_cons_self _ _)
        · exact Or.inr (List.mem_cons_of_mem _ h2)

theorem addChildren_inv {visited : Finset Nat} :
    ∀ {cs stack stackNew : List Nat}, addChildren visited stack cs = some stackNew →
      stack.Nodup → (∀ v ∈ stack, v ∉ visited) →
      stackNew.Nodup ∧ ∀ v ∈ stackNew, v ∉ visited := by
  intro cs
  induction cs with
  | nil =>
    intro stack stackNew h hnd hvis
    simp only [addChildren, Option.some.injEq] at h
    subst h
    exact ⟨hnd, hvis⟩
  | cons c cs ih =>
    intro stack stackNew h hnd hvis
    by_cases hc : c ∈ stack
    · simp [addChildren, hc] at h
    · by_cases hcv : c ∈ visited
      · simp only [addChildren, if_neg hc, if_pos hcv] at h
        exact ih h hnd hvis
      · simp only [addChildren, if_neg hc, if_neg hcv] at h
        refine ih h ?_ ?_
        · simpa [List.nodup_append] using ⟨hnd, hc⟩
        · intro v hv
          rcases List.mem_append.mp hv with hv | hv
          · exact hvis v hv
          · rcases List.mem_singleton.mp hv with rfl
            exact hcv

/-- The inner `while (stack.size > 0)` loop of `hasCycle`.  The JS stack is
an insertion-ordered set: the element inserted first is taken first, new
elements are appended at the end.  `none` reports a cycle; `some` hands
the updated visited set back to the outer loop.  The stack stays
duplicate-free and disjoint from the visited set, which the hypothesis
records. -/
def cycleLoop (edges : List DirectedEdge) (stack : List Nat) (visited : Finset Nat)
    (h : stack.Nodup ∧ ∀ v ∈ stack, v ∉ visited) : Option (Finset Nat) :=
  match stack with
  | [] => some visited
  | current :: rest =>
    match hadd : addChildren (insert current visited) rest (related current edges) with
    | none => none
    | some stackNew =>
      cycleLoop edges stackNew (insert current visited)
        (by
          refine addChildren_inv hadd (List.Nodup.of_cons h.1) ?_
          intro v hv hmem
          rcases Finset.mem_insert.mp hmem with rfl | hmem
          · exact (List.nodup_cons.mp h.1).1 hv
          · exact h.2 v (List.mem_cons_of_mem _ hv) hmem)
termination_by ((univFin edges ∪ stack.toFinset) \ visited).card
decreasing_by
  apply Finset.card_lt_card
  rw [Finset.ssubset_iff_of_subset]
  · refine ⟨current, Finset.mem_sdiff.mpr ⟨?_, h.2 current (List.mem_cons_self _ _)⟩, ?_⟩
    · exact Finset.mem_union_right _ (by simp)
    · intro hc
      exact (Finset.mem_sdiff.mp hc).2 (Finset.mem_insert_self _ _)
  · intro x hx
    rcases Finset.mem_sdiff.mp hx with ⟨hx1, hx2⟩
    refine Finset.mem_sdiff.mpr ⟨?_, fun hc => hx2 (Finset.mem_insert_of_mem hc)⟩
    rcases Finset.mem_union.mp hx1 with h1 | h1
    · exact Finset.mem_union_left _ h1
    · rcases addChildren_sound hadd x (List.mem_toFinset.mp h1) with h2 | h2
      · exact Finset.mem_union_right _ (List.mem_toFinset.mpr (List.mem_cons_of_mem _ h2))
      · exact Finset.mem_union_left _ (related_mem_univFin h2)

/-- The outer `for (const node of nodes)` loop of `hasCycle`. -/
def cycleOuter (edges : List DirectedEdge) : List Nat → Finset Nat → Bool
  | [], _ => false
  | n :: ns, visited =>
    if hn : n ∈ visited then cycleOuter edges ns visited
    else
      match cycleLoop edges [n] visited
          ⟨List.nodup_singleton n, by
            intro v hv
            rw [List.mem_singleton] at hv
            subst hv
            exact hn⟩ with
      | none => true
      | some visitedNew => cycleOuter edges ns visitedNew

/-- `hasCycle` of the source.  Note that the walk uses `related` - the full
ancestor and descendant sets - as the neighbours of a vertex. -/
def hasCycle (edges : List DirectedEdge) : Bool :=
  cycleOuter edges (everything edges) ∅

theorem lexHelper {a b c d : Nat} (hab : a ≤ b) (h2 : a = b → c < d) :
    Prod.Lex (· < ·) (· < ·) (a, c) (b, d) := by
  rcases Nat.lt_or_ge a b with h | h
  · exact Prod.Lex.left _ _ h
  · have heq : a = b := Nat.le_antisymm hab h
    subst heq
    exact Prod.Lex.right _ (h2 rfl)

namespace Search

/-- `parents` of `src/search.ts`: sources of edges into `id`, without
deduplication. -/
def parents (id : Nat) (edges : List DirectedEdge) : List Nat :=
  (edges.filter fun e => e.target == id).map fun e => e.source

/-- `children` of `src/search.ts`: targets of edges out of `id`, without
deduplication. -/
def children (id : Nat) (edges : List DirectedEdge) : List Nat :=
  (edges.filter fun e => e.source == id).map fun e => e.target

theorem mem_parents_search {id : Nat} {edges : List DirectedEdge} {p : Nat} :
    p ∈ parents id edges ↔ edgeStep edges p id := by
  simp only [parents, List.mem_map, List.mem_filter, beq_iff_eq, edgeStep]
  constructor
  · rintro ⟨e, ⟨he, ht⟩, hs⟩
    exact ⟨e, he, hs, ht⟩
  · rintro ⟨e, he, hs, ht⟩
    exact ⟨e, ⟨he, ht⟩, hs⟩

theorem mem_children_search {id : Nat} {edges : List DirectedEdge} {c : Nat} :
    c ∈ children id edges ↔ edgeStep edges id c := by
  simp only [children, List.mem_map, List.mem_filter, beq_iff_eq, edgeStep]
  constructor
  · rintro ⟨e, ⟨he, hs⟩, ht⟩
    exact ⟨e, he, hs, ht⟩
  · rintro ⟨e, he, hs, ht⟩
    exact ⟨e, ⟨he, hs⟩, ht⟩

theorem children_mem_targetsFin_search {edges : List DirectedEdge} {id x : Nat}
    (hx : x ∈ children id edges) : x ∈ targetsFin edges := by
  rcases mem_children_search.mp hx with ⟨e, he, _, ht⟩
  simp only [targetsFin, List.mem_toFinset, List.mem_map]
  exact ⟨e, he, ht⟩

/-- The loop of `maze`: depth-first reachability over `children`, with the
stack popped from the end. -/
def mazeLoop (edges : List DirectedEdge) (stack : List Nat) (visited : Finset Nat)
    (result : List Nat) : List Nat :=
  match hs : stack.getLast? with
  | none => result
  | some current =>
    if current ∈ visited then mazeLoop edges stack.dropLast visited result
    else
      mazeLoop edges (stack.dropLast ++ children current edges) (insert current visited)
        (result ++ [current])
termination_by (((univFin edges ∪ stack.toFinset) \ visited).card, stack.length)
decreasing_by
  · have hsub : ((univFin edges ∪ stack.dropLast.toFinset) \ visited)
        ⊆ ((univFin edges ∪ stack.toFinset) \ visited) := by
      intro x hx
      rcases Finset.mem_sdiff.mp hx with ⟨hx1, hx2⟩
      refine Finset.mem_sdiff.mpr ⟨?_, hx2⟩
      rcases Finset.mem_union.mp hx1 with h1 | h1
      · exact Finset.mem_union_left _ h1
      · exact Finset.mem_union_right _
          (List.mem_toFinset.mpr (List.dropLast_subset _ (List.mem_toFinset.mp h1)))
    rcases eq_or_lt_of_le (Finset.card_le_card hsub) with heq | hlt
    · rw [heq]
      refine Prod.Lex.right _ ?_
      have hne : stack ≠ [] := by
        intro hcon
        subst hcon
        simp at hs
      rw [List.length_dropLast]
      exact Nat.sub_lt (List.length_pos.mpr hne) Nat.one_pos
    · exact Prod.Lex.left _ _ hlt
  · rename_i hv
    apply Prod.Lex.left
    apply Finset.card_lt_card
    rw [Finset.ssubset_iff_of_subset]
    · refine ⟨current, Finset.mem_sdiff.mpr ⟨?_, hv⟩, ?_⟩
      · exact Finset.mem_union_right _ (List.mem_toFinset.mpr (mem_of_getLastQ hs))
      · intro hc
        exact (Finset.mem_sdiff.mp hc).2 (Finset.mem_insert_self _ _)
    · intro x hx
      rcases Finset.mem_sdiff.mp hx with ⟨hx1, hx2⟩
      refine Finset.mem_sdiff.mpr ⟨?_, fun hc => hx2 (Finset.mem_insert_of_mem hc)⟩
      rcases Finset.mem_union.mp hx1 with h1 | h1
      · exact Finset.mem_union_left _ h1
      · rcases List.mem_append.mp (List.mem_toFinset.mp h1) with h2 | h2
        · exact Finset.mem_union_right _
            (List.mem_toFinset.mpr (List.dropLast_subset _ h2))
        · exact Finset.mem_union_left _
            (Finset.mem_union_right _ (children_mem_targetsFin_search h2))

/-- `maze` of `src/search.ts`. -/
def maze (start : Nat) (edges : List DirectedEdge) : List Nat :=
  mazeLoop edges [start] ∅ []

/-- The loop of `bfs`: breadth-first reachability over `children`, with the
queue popped from the front. -/
def bfsLoop (edges : List DirectedEdge) (visited : Finset Nat) (result : List Nat) :
    List Nat → List Nat
  | [] => result
  | current :: rest =>
    if current ∈ visited then bfsLoop edges visited result rest
    else
      bfsLoop edges (insert current visited) (result ++ [current])
        (rest ++ children current edges)
termination_by queue => (((univFin edges ∪ queue.toFinset) \ visited).card, queue.length)
decreasing_by
  · apply lexHelper
    · apply Finset.card_le_card
      intro x hx
      simp only [Finset.mem_sdiff, Finset.mem_union, List.mem_toFinset] at hx ⊢
      exact ⟨hx.1.imp id (List.mem_cons_of_mem _), hx.2⟩
    · intro _
      simp only [List.length_cons]
      exact Nat.lt_succ_self _
  · apply Prod.Lex.left
    apply Finset.card_lt_card
    rw [Finset.ssubset_iff_of_subset]
    · refine ⟨_, Finset.mem_sdiff.mpr ⟨Finset.mem_union_right _
          (List.mem_toFinset.mpr (List.mem_cons_self _ _)), ?_⟩, ?_⟩
      · assumption
      · intro hc
        exact (Finset.mem_sdiff.mp hc).2 (Finset.mem_insert_self _ _)
    · intro x hx
      rcases Finset.mem_sdiff.mp hx with ⟨hx1, hx2⟩
      refine Finset.mem_sdiff.mpr ⟨?_, fun hc => hx2 (Finset.mem_insert_of_mem hc)⟩
      rcases Finset.mem_union.mp hx1 with h1 | h1
      · exact Finset.mem_union_left _ h1
      · rcases List.mem_append.mp (List.mem_toFinset.mp h1) with h2 | h2
        · exact Finset.mem_union_right _ (List.mem_toFinset.mpr (List.mem_cons_of_mem _ h2))
        · exact Finset.mem_union_left _
            (Finset.mem_union_right _ (children_mem_targetsFin_search h2))

/-- `bfs` of `src/search.ts`. -/
def bfs (start : Nat) (edges : List DirectedEdge) : List Nat :=
  bfsLoop edges ∅ [] [start]

/-- The loop of `dfs`: depth-first over `children` with a depth bound;
the stack holds vertex and depth pairs and is popped from the end. -/
def dfsLoop (edges : List DirectedEdge) (maxDepth : Nat) (stack : List (Nat × Nat))
    (visited : Finset Nat) (result : List Nat) : List Nat :=
  match hs : stack.getLast? with
  | none => result
  | some entry =>
    if entry.1 ∈ visited then dfsLoop edges maxDepth stack.dropLast visited result
    else if entry.2 < maxDepth then
      dfsLoop edges maxDepth
        (stack.dropLast ++ (children entry.1 edges).map fun c => (c, entry.2 + 1))
        (insert entry.1 visited) (result ++ [entry.1])
    else dfsLoop edges maxDepth stack.dropLast (insert entry.1 visited) (result ++ [entry.1])
termination_by (((univFin edges ∪ (stack.map Prod.fst).toFinset) \ visited).card, stack.length)
decreasing_by
  · have hsub : ((univFin edges ∪ (stack.dropLast.map Prod.fst).toFinset) \ visited)
        ⊆ ((univFin edges ∪ (stack.map Prod.fst).toFinset) \ visited) := by
      intro x hx
      rcases Finset.mem_sdiff.mp hx with ⟨hx1, hx2⟩
      refine Finset.mem_sdiff.mpr ⟨?_, hx2⟩
      rcases Finset.mem_union.mp hx1 with h1 | h1
      · exact Finset.mem_union_left _ h1
      · refine Finset.mem_union_right _ (List.mem_toFinset.mpr ?_)
        rcases List.mem_map.mp (List.mem_toFinset.mp h1) with ⟨en, hen, he⟩
        exact List.mem_map.mpr ⟨en, List.dropLast_subset _ hen, he⟩
    rcases eq_or_lt_of_le (Finset.card_le_card hsub) with heq | hlt
    · rw [heq]
      refine Prod.Lex.right _ ?_
      have hne : stack ≠ [] := by
        intro hcon
        subst hcon
        simp at hs
      rw [List.length_dropLast]
      exact Nat.sub_lt (List.length_pos.mpr hne) Nat.one_pos
    · exact Prod.Lex.left _ _ hlt
  · rename_i hv hd
    apply Prod.Lex.left
    apply Finset.card_lt_card
    rw [Finset.ssubset_iff_of_subset]
    · refine ⟨entry.1, Finset.mem_sdiff.mpr ⟨?_, hv⟩, ?_⟩
      · refine Finset.mem_union_right _ (List.mem_toFinset.mpr ?_)
        exact List.mem_map.mpr ⟨entry, mem_of_getLastQ hs, rfl⟩
      · intro hc
        exact (Finset.mem_sdiff.mp hc).2 (Finset.mem_insert_self _ _)
    · intro x hx
      rcases Finset.mem_sdiff.mp hx with ⟨hx1, hx2⟩
      refine Finset.mem_sdiff.mpr ⟨?_, fun hc => hx2 (Finset.mem_insert_of_mem hc)⟩
      rcases Finset.mem_union.mp hx1 with h1 | h1
      · exact Finset.mem_union_left _ h1
      · rcases List.mem_map.mp (List.mem_toFinset.mp h1) with ⟨en, hen, he⟩
        rcases List.mem_append.mp hen with h2 | h2
        · refine Finset.mem_union_right _ (List.mem_toFinset.mpr ?_)
          exact List.mem_map.mpr ⟨en, List.dropLast_subset _ h2, he⟩
        · rcases List.mem_map.mp h2 with ⟨c, hc, rfl⟩
          refine Finset.mem_union_left _ (Finset.mem_union_right _ ?_)
          rw [← he]
          exact children_mem_targetsFin_search hc
  · rename_i hv hd
    apply Prod.Lex.left
    apply Finset.card_lt_card
    rw [Finset.ssubset_iff_of_subset]
    · refine ⟨entry.1, Finset.mem_sdiff.mpr ⟨?_, hv⟩, ?_⟩
      · refine Finset.mem_union_right _ (List.mem_toFinset.mpr ?_)
        exact List.mem_map.mpr ⟨entry, mem_of_getLastQ hs, rfl⟩
      · intro hc
        exact (Finset.mem_sdiff.mp hc).2 (Finset.mem_insert_self _ _)
    · intro x hx
      rcases Finset.mem_sdiff.mp hx with ⟨hx1, hx2⟩
      refine Finset.mem_sdiff.mpr ⟨?_, fun hc => hx2 (Finset.mem_insert_of_mem hc)⟩
      rcases Finset.mem_union.mp hx1 with h1 | h1
      · exact Finset.mem_union_left _ h1
      · refine Finset.mem_union_right _ (List.mem_toFinset.mpr ?_)
        rcases List.mem_map.mp (List.mem_toFinset.mp h1) with ⟨en, hen, he⟩
        exact List.mem_map.mpr ⟨en, List.dropLast_subset _ hen, he⟩

/-- `dfs` of `src/search.ts`. -/
def dfs (start : Nat) (edges : List DirectedEdge) (maxDepth : Nat) : List Nat :=
  dfsLoop edges maxDepth [(start, 0)] ∅ []

end Search

/-- Reachability from `s` along directed edges with a recorded hop count. -/
inductive WalkLen (edges : List DirectedEdge) (s : Nat) : Nat → Nat → Prop
  | zero : WalkLen edges s s 0
  | succ {v w n} : WalkLen edges s v n → edgeStep edges v w → WalkLen edges s w (n + 1)

/-- A walk along directed edges: a nonempty vertex sequence from `a` to `b`
every consecutive pair of which is a directed edge of the list. -/
def isWalk (edges : List DirectedEdge) (p : List Nat) (a b : Nat) : Prop :=
  p.head? = some a ∧ p.getLast? = some b ∧ List.Chain' (edgeStep edges) p

/-- Boolean edge-chain check used to decide `isWalk` by evaluation. -/
def walkChainB (edges : List DirectedEdge) : List Nat → Bool
  | [] => true
  | [_] => true
  | a :: b :: t => decide (edgeStep edges a b) && walkChainB edges (b :: t)

theorem walkChainB_iff {edges : List DirectedEdge} :
    ∀ (l : List Nat), walkChainB edges l = true ↔ List.Chain' (edgeStep edges) l
  | [] => by simp [walkChainB]
  | [a] => by simp [walkChainB]
  | a :: b :: t => by
    rw [walkChainB, Bool.and_eq_true, decide_eq_true_eq, List.chain'_cons,
      walkChainB_iff (b :: t)]

instance (edges : List DirectedEdge) (p : List Nat) (a b : Nat) :
    Decidable (isWalk edges p a b) :=
  decidable_of_iff (p.head? = some a ∧ p.getLast? = some b ∧ walkChainB edges p = true)
    (by simp [isWalk, walkChainB_iff])

theorem isWalk_singleton {edges : List DirectedEdge} {a : Nat} : isWalk edges [a] a a := by
  simp [isWalk]

theorem isWalk_extend {edges : List DirectedEdge} {p : List Nat} {a b c : Nat}
    (h : isWalk edges p a b) (he : edgeStep edges b c) : isWalk edges (p ++ [c]) a c := by
  obtain ⟨h1, h2, h3⟩ := h
  refine ⟨?_, ?_, ?_⟩
  · cases p with
    | nil => simp at h1
    | cons x t => simpa using h1
  · simp [List.getLast?_concat]
  · rw [List.chain'_append]
    refine ⟨h3, List.chain'_singleton c, ?_⟩
    intro x hx y hy
    simp only [List.head?_cons, Option.mem_def, Option.some.injEq] at hy
    subst hy
    rw [h2, Option.mem_def, Option.some.injEq] at hx
    subst hx
    exact he

theorem chain_walkLen {edges : List DirectedEdge} {s : Nat} :
    ∀ {rest : List Nat} {v k w : Nat}, WalkLen edges s v k →
      List.Chain (edgeStep edges) v rest → (v :: rest).getLast? = some w →
      WalkLen edges s w (k + rest.length) := by
  intro rest
  induction rest with
  | nil =>
    intro v k w hw hc hl
    simp only [List.getLast?_singleton, Option.some.injEq] at hl
    subst hl
    simpa using hw
  | cons u rest ih =>
    intro v k w hw hc hl
    rcases List.chain_cons.mp hc with ⟨hvu, hchain⟩
    have hl2 : (u :: rest).getLast? = some w := by
      simpa [List.getLast?_cons_cons] using hl
    have h2 := ih (WalkLen.succ hw hvu) hchain hl2
    have heq : k + 1 + rest.length = k + (u :: rest).length := by
      simp only [List.length_cons]
      omega
    rw [heq] at h2
    exact h2

theorem isWalk_walkLen {edges : List DirectedEdge} {p : List Nat} {a b : Nat}
    (h : isWalk edges p a b) : ∃ n, WalkLen edges a b n ∧ p.length = n + 1 := by
  obtain ⟨h1, h2, h3⟩ := h
  cases p with
  | nil => simp at h1
  | cons x rest =>
    simp only [List.head?_cons, Option.some.injEq] at h1
    subst h1
    refine ⟨rest.length, ?_, by simp⟩
    have hchain : List.Chain (edgeStep edges) x rest := h3
    simpa using chain_walkLen WalkLen.zero hchain h2

theorem walkLen_isWalk {edges : List DirectedEdge} {s v n : Nat} (h : WalkLen edges s v n) :
    ∃ p, isWalk edges p s v ∧ p.length = n + 1 := by
  induction h with
  | zero => exact ⟨[s], isWalk_singleton, rfl⟩
  | succ hw he ih =>
    rcases ih with ⟨p, hp, hl⟩
    exact ⟨p ++ [_], isWalk_extend hp he, by simp [hl]⟩

theorem walkLen_reflTransGen {edges : List DirectedEdge} {s v n : Nat}
    (h : WalkLen edges s v n) : Relation.ReflTransGen (edgeStep edges) s v := by
  induction h with
  | zero => exact Relation.ReflTransGen.refl
  | succ hw he ih => exact Relation.ReflTransGen.tail ih he

theorem reflTransGen_walkLen {edges : List DirectedEdge} {s v : Nat}
    (h : Relation.ReflTransGen (edgeStep edges) s v) : ∃ n, WalkLen edges s v n := by
  induction h with
  | refl => exact ⟨0, WalkLen.zero⟩
  | tail hsteps he ih =>
    rcases ih with ⟨n, hn⟩
    exact ⟨n + 1, hn.succ he⟩

theorem worklistLoop_sound (nbrs : Nat → List Nat) (U : Finset Nat)
    (hU : ∀ v, ∀ x ∈ nbrs v, x ∈ U) (P : Nat → Prop)
    (hP : ∀ v, P v → ∀ x ∈ nbrs v, P x) :
    ∀ queue acc, (∀ q ∈ queue, P q) → (∀ a ∈ acc, P a) →
      ∀ x ∈ worklistLoop nbrs U hU queue acc, P x := by
  intro queue acc
  induction queue, acc using worklistLoop.induct nbrs U hU with
  | case1 queue acc hq =>
    intro hqueue hacc x hx
    rw [worklistLoop_nil hq] at hx
    exact hacc x hx
  | case2 queue acc nextId hq ih =>
    intro hqueue hacc x hx
    rw [worklistLoop_cons hq] at hx
    have hnext : P nextId := hqueue nextId (mem_of_getLastQ hq)
    refine ih ?_ ?_ x hx
    · intro q hqm
      rcases List.mem_append.mp hqm with h | h
      · exact hqueue q (List.dropLast_subset _ h)
      · exact hP nextId hnext q (List.mem_filter.mp h).1
    · intro a ha
      rcases mem_addOnce.mp ha with h | rfl
      · exact hacc a h
      · exact hnext

theorem worklistLoop_closed (nbrs : Nat → List Nat) (U : Finset Nat)
    (hU : ∀ v, ∀ x ∈ nbrs v, x ∈ U) :
    ∀ queue acc,
      (∀ a ∈ acc, a ∈ worklistLoop nbrs U hU queue acc) ∧
      (∀ q ∈ queue, q ∈ worklistLoop nbrs U hU queue acc) ∧
      (∀ v ∈ worklistLoop nbrs U hU queue acc, v ∉ acc →
        ∀ x ∈ nbrs v, x ∈ worklistLoop nbrs U hU queue acc) := by
  intro queue acc
  induction queue, acc using worklistLoop.induct nbrs U hU with
  | case1 queue acc hq =>
    rw [worklistLoop_nil hq]
    have hqnil : queue = [] := by
      cases queue with
      | nil => rfl
      | cons a t => simp at hq
    subst hqnil
    refine ⟨fun a ha => ha, fun q hqm => absurd hqm (List.not_mem_nil q), ?_⟩
    intro v hv hnv
    exact absurd hv hnv
  | case2 queue acc nextId hq ih =>
    rw [worklistLoop_cons hq]
    obtain ⟨ih1, ih2, ih3⟩ := ih
    have hsplit : queue.dropLast ++ [nextId] = queue := dropLast_append_getLastQ hq
    refine ⟨?_, ?_, ?_⟩
    · intro a ha
      exact ih1 a (mem_addOnce.mpr (Or.inl ha))
    · intro q hqm
      rw [← hsplit] at hqm
      rcases List.mem_append.mp hqm with h | h
      · exact ih2 q (List.mem_append_left _ h)
      · rcases List.mem_singleton.mp h with rfl
        exact ih1 q (mem_addOnce.mpr (Or.inr rfl))
    · intro v hv hnv x hx
      by_cases hveq : v = nextId
      · subst hveq
        by_cases hxa : x ∈ addOnce acc v
        · exact ih1 x hxa
        · refine ih2 x (List.mem_append_right _ ?_)
          rw [List.mem_filter]
          exact ⟨hx, by simpa using hxa⟩
      · have hva : v ∉ addOnce acc nextId := by
          rw [mem_addOnce]
          rintro (h | h)
          · exact hnv h
          · exact hveq h
        exact ih3 v hv hva x hx

theorem mem_worklistLoop_closure (nbrs : Nat → List Nat) (U : Finset Nat)
    (hU : ∀ v, ∀ x ∈ nbrs v, x ∈ U) (queue : List Nat) (x : Nat) :
    x ∈ worklistLoop nbrs U hU queue [] ↔
      ∃ q ∈ queue, Relation.ReflTransGen (fun a b => b ∈ nbrs a) q x := by
  constructor
  · intro hx
    refine worklistLoop_sound nbrs U hU
      (fun y => ∃ q ∈ queue, Relation.ReflTransGen (fun a b => b ∈ nbrs a) q y) ?_ queue [] ?_ ?_ x hx
    · rintro v ⟨q, hqm, hr⟩ y hy
      exact ⟨q, hqm, Relation.ReflTransGen.tail hr hy⟩
    · intro q hqm
      exact ⟨q, hqm, Relation.ReflTransGen.refl⟩
    · intro a ha
      exact absurd ha (List.not_mem_nil a)
  · rintro ⟨q, hqm, hr⟩
    obtain ⟨h1, h2, h3⟩ := worklistLoop_closed nbrs U hU queue []
    induction hr with
    | refl => exact h2 q hqm
    | tail hsteps he ih =>
      exact h3 _ ih (List.not_mem_nil _) _ he

theorem mem_ancestors {id x : Nat} {edges : List DirectedEdge} :
    x ∈ ancestors id edges ↔ Relation.TransGen (edgeStep edges) x id := by
  rw [ancestors, mem_worklistLoop_closure]
  constructor
  · rintro ⟨q, hqm, hr⟩
    have hq : edgeStep edges q id := mem_parents.mp hqm
    have hr2 : Relation.ReflTransGen (edgeStep edges) x q := by
      have hswap := Relation.ReflTransGen.mono
        (fun a b (h : b ∈ parents a edges) => mem_parents.mp h) hr
      exact (Relation.reflTransGen_swap).mp hswap
    exact Relation.TransGen.tail' hr2 hq
  · intro h
    rcases (Relation.TransGen.tail'_iff).mp h with ⟨q, hr, hq⟩
    refine ⟨q, mem_parents.mpr hq, ?_⟩
    refine Relation.ReflTransGen.mono (fun a b (h2 : edgeStep edges b a) => mem_parents.mpr h2) ?_
    exact (Relation.reflTransGen_swap).mpr hr

theorem mem_descendants {id x : Nat} {edges : List DirectedEdge} :
    x ∈ descendants id edges ↔ Relation.TransGen (edgeStep edges) id x := by
  rw [descendants, mem_worklistLoop_closure]
  constructor
  · rintro ⟨q, hqm, hr⟩
    have hq : edgeStep edges id q := mem_children.mp hqm
    have hr2 : Relation.ReflTransGen (edgeStep edges) q x :=
      Relation.ReflTransGen.mono (fun a b (h : b ∈ children a edges) => mem_children.mp h) hr
    exact Relation.TransGen.head' hq hr2
  · intro h
    rcases (Relation.TransGen.head'_iff).mp h with ⟨q, hq, hr⟩
    refine ⟨q, mem_children.mpr hq, ?_⟩
    exact Relation.ReflTransGen.mono (fun a b (h2 : edgeStep edges a b) => mem_children.mpr h2) hr

theorem sweepStep_ancestors {visited : Finset Nat} {e : DirectedEdge} :
    sweepStep Traversal.ancestors visited e =
      if e.source ∉ visited ∧ e.target ∈ visited then insert e.source visited else visited := by
  simp +decide [sweepStep]

theorem sweepStep_descendants {visited : Finset Nat} {e : DirectedEdge} :
    sweepStep Traversal.descendants visited e =
      if e.target ∉ visited ∧ e.source ∈ visited then insert e.target visited else visited := by
  simp +decide [sweepStep]

theorem subset_sweepLoop {mode : Traversal} {edges : List DirectedEdge} :
    ∀ {visited : Finset Nat}, visited ⊆ sweepLoop mode edges visited := by
  intro visited
  induction visited using sweepLoop.induct mode edges with
  | case1 visited heq =>
    rw [sweepLoop, if_pos heq]
  | case2 visited heq ih =>
    rw [sweepLoop, if_neg heq]
    exact subset_trans subset_sweepOnce ih

theorem sweepLoop_fixed (mode : Traversal) (edges : List DirectedEdge) (visited : Finset Nat) :
    sweepOnce mode edges (sweepLoop mode edges visited) = sweepLoop mode edges visited := by
  induction visited using sweepLoop.induct mode edges with
  | case1 visited heq =>
    rw [sweepLoop, if_pos heq]
    exact heq
  | case2 visited heq ih =>
    rw [sweepLoop, if_neg heq]
    exact ih

theorem foldl_sweepStep_fixed {mode : Traversal} :
    ∀ (l : List DirectedEdge) (V : Finset Nat),
      l.foldl (sweepStep mode) V = V → ∀ e ∈ l, sweepStep mode V e = V := by
  intro l
  induction l with
  | nil =>
    intro V _ e he
    exact absurd he (List.not_mem_nil e)
  | cons e t ih =>
    intro V h e2 he2
    have h1 : V ⊆ sweepStep mode V e := subset_sweepStep
    have h2 : sweepStep mode V e ⊆ t.foldl (sweepStep mode) (sweepStep mode V e) :=
      subset_foldl_sweepStep t _
    rw [List.foldl_cons] at h
    rw [h] at h2
    have heq : sweepStep mode V e = V := Finset.Subset.antisymm h2 h1
    rcases List.mem_cons.mp he2 with rfl | he2
    · exact heq
    · refine ih V ?_ e2 he2
      rw [heq] at h
      exact h
    
theorem sweepOnce_fixed_rule_anc {edges : List DirectedEdge} {V : Finset Nat}
    (h : sweepOnce Traversal.ancestors edges V = V) :
    ∀ e ∈ edges, e.target ∈ V → e.source ∈ V := by
  intro e he ht
  have hstep := foldl_sweepStep_fixed edges V h e he
  rw [sweepStep_ancestors] at hstep
  by_cases hs : e.source ∈ V
  · exact hs
  · rw [if_pos ⟨hs, ht⟩] at hstep
    exact hstep ▸ Finset.mem_insert_self e.source V

theorem sweepOnce_fixed_rule_desc {edges : List DirectedEdge} {V : Finset Nat}
    (h : sweepOnce Traversal.descendants edges V = V) :
    ∀ e ∈ edges, e.source ∈ V → e.target ∈ V := by
  intro e he hs
  have hstep := foldl_sweepStep_fixed edges V h e he
  rw [sweepStep_descendants] at hstep
  by_cases ht : e.target ∈ V
  · exact ht
  · rw [if_pos ⟨ht, hs⟩] at hstep
    exact hstep ▸ Finset.mem_insert_self e.target V

theorem foldl_sweepStep_sound_anc {edges : List DirectedEdge} {id : Nat} :
    ∀ (l : List DirectedEdge) (V : Finset Nat), (∀ e ∈ l, e ∈ edges) →
      (∀ v ∈ V, Relation.ReflTransGen (edgeStep edges) v id) →
      ∀ v ∈ l.foldl (sweepStep Traversal.ancestors) V,
        Relation.ReflTransGen (edgeStep edges) v id := by
  intro l
  induction l with
  | nil =>
    intro V _ hV v hv
    exact hV v hv
  | cons e t ih =>
    intro V hl hV v hv
    rw [List.foldl_cons] at hv
    refine ih _ (fun f hf => hl f (List.mem_cons_of_mem _ hf)) ?_ v hv
    intro w hw
    rw [sweepStep_ancestors] at hw
    split at hw
    · rename_i hcond
      rcases Finset.mem_insert.mp hw with rfl | hw
      · refine Relation.ReflTransGen.head ?_ (hV e.target hcond.2)
        exact ⟨e, hl e (List.mem_cons_self _ _), rfl, rfl⟩
      · exact hV w hw
    · exact hV w hw

theorem foldl_sweepStep_sound_desc {edges : List DirectedEdge} {id : Nat} :
    ∀ (l : List DirectedEdge) (V : Finset Nat), (∀ e ∈ l, e ∈ edges) →
      (∀ v ∈ V, Relation.ReflTransGen (edgeStep edges) id v) →
      ∀ v ∈ l.foldl (sweepStep Traversal.descendants) V,
        Relation.ReflTransGen (edgeStep edges) id v := by
  intro l
  induction l with
  | nil =>
    intro V _ hV v hv
    exact hV v hv
  | cons e t ih =>
    intro V hl hV v hv
    rw [List.foldl_cons] at hv
    refine ih _ (fun f hf => hl f (List.mem_cons_of_mem _ hf)) ?_ v hv
    intro w hw
    rw [sweepStep_descendants] at hw
    split at hw
    · rename_i hcond
      rcases Finset.mem_insert.mp hw with rfl | hw
      · refine Relation.ReflTransGen.tail (hV e.source hcond.2) ?_
        exact ⟨e, hl e (List.mem_cons_self _ _), rfl, rfl⟩
      · exact hV w hw
    · exact hV w hw

theorem sweepLoop_sound_anc {edges : List DirectedEdge} {id : Nat} :
    ∀ {V : Finset Nat}, (∀ v ∈ V, Relation.ReflTransGen (edgeStep edges) v id) →
      ∀ v ∈ sweepLoop Traversal.ancestors edges V,
        Relation.ReflTransGen (edgeStep edges) v id := by
  intro V
  induction V using sweepLoop.induct Traversal.ancestors edges with
  | case1 V heq =>
    intro hV v hv
    rw [sweepLoop, if_pos heq] at hv
    exact hV v hv
  | case2 V heq ih =>
    intro hV v hv
    rw [sweepLoop, if_neg heq] at hv
    exact ih (foldl_sweepStep_sound_anc edges V (fun _ he => he) hV) v hv

theorem sweepLoop_sound_desc {edges : List DirectedEdge} {id : Nat} :
    ∀ {V : Finset Nat}, (∀ v ∈ V, Relation.ReflTransGen (edgeStep edges) id v) →
      ∀ v ∈ sweepLoop Traversal.descendants edges V,
        Relation.ReflTransGen (edgeStep edges) id v := by
  intro V
  induction V using sweepLoop.induct Traversal.descendants edges with
  | case1 V heq =>
    intro hV v hv
    rw [sweepLoop, if_pos heq] at hv
    exact hV v hv
  | case2 V heq ih =>
    intro hV v hv
    rw [sweepLoop, if_neg heq] at hv
    exact ih (foldl_sweepStep_sound_desc edges V (fun _ he => he) hV) v hv

theorem sweepLoop_complete_anc {edges : List DirectedEdge} {id : Nat} :
    ∀ v, Relation.ReflTransGen (edgeStep edges) v id →
      v ∈ sweepLoop Traversal.ancestors edges {id} := by
  intro v hv
  have hid : id ∈ sweepLoop Traversal.ancestors edges {id} :=
    subset_sweepLoop (Finset.mem_singleton_self id)
  have hrule := sweepOnce_fixed_rule_anc (sweepLoop_fixed Traversal.ancestors edges {id})
  induction hv using Relation.ReflTransGen.head_induction_on with
  | refl => exact hid
  | head hstep htail ih =>
    rcases hstep with ⟨e, he, hs, ht⟩
    subst hs
    subst ht
    exact hrule e he ih

theorem sweepLoop_complete_desc {edges : List DirectedEdge} {id : Nat} :
    ∀ v, Relation.ReflTransGen (edgeStep edges) id v →
      v ∈ sweepLoop Traversal.descendants edges {id} := by
  intro v hv
  have hid : id ∈ sweepLoop Traversal.descendants edges {id} :=
    subset_sweepLoop (Finset.mem_singleton_self id)
  have hrule := sweepOnce_fixed_rule_desc (sweepLoop_fixed Traversal.descendants edges {id})
  induction hv with
  | refl => exact hid
  | tail htail hstep ih =>
    rcases hstep with ⟨e, he, hs, ht⟩
    subst hs
    subst ht
    exact hrule e he ih

theorem mem_traverse_ancestors {id x : Nat} {edges : List DirectedEdge} :
    x ∈ traverse id edges Traversal.ancestors ↔
      x ≠ id ∧ Relation.ReflTransGen (edgeStep edges) x id := by
  rw [traverse.eq_def, dif_neg (by decide : ¬ Traversal.ancestors = Traversal.tree), Finset.mem_erase]
  constructor
  · rintro ⟨hne, hmem⟩
    refine ⟨hne, ?_⟩
    refine sweepLoop_sound_anc ?_ x hmem
    intro v hv
    rw [Finset.mem_singleton] at hv
    subst hv
    exact Relation.ReflTransGen.refl
  · rintro ⟨hne, hr⟩
    exact ⟨hne, sweepLoop_complete_anc x hr⟩

theorem mem_traverse_descendants {id x : Nat} {edges : List DirectedEdge} :
    x ∈ traverse id edges Traversal.descendants ↔
      x ≠ id ∧ Relation.ReflTransGen (edgeStep edges) id x := by
  rw [traverse.eq_def, dif_neg (by decide : ¬ Traversal.descendants = Traversal.tree), Finset.mem_erase]
  constructor
  · rintro ⟨hne, hmem⟩
    refine ⟨hne, ?_⟩
    refine sweepLoop_sound_desc ?_ x hmem
    intro v hv
    rw [Finset.mem_singleton] at hv
    subst hv
    exact Relation.ReflTransGen.refl
  · rintro ⟨hne, hr⟩
    exact ⟨hne, sweepLoop_complete_desc x hr⟩

/-- A queue entry holds a walk from the source ending at its recorded final
vertex, and its distance is the hop count of that walk. -/
def entryOK (edges : List DirectedEdge) (s : Nat) (en : Nat × List Nat) : Prop :=
  isWalk edges en.2 s (lastId en.2) ∧ en.2.length = en.1 + 1

/-- The queue is sorted by distance. -/
def queueSorted (q : List (Nat × List Nat)) : Prop :=
  List.Pairwise (fun a b => a.1 ≤ b.1) q

/-- Every child of an expanded vertex is expanded itself or queued with a
distance of at most one more than the hop count of any walk to its parent. -/
def frontierOK (edges : List DirectedEdge) (s : Nat) (V : Finset Nat)
    (q : List (Nat × List Nat)) : Prop :=
  ∀ v ∈ V, ∀ x ∈ children v edges, x ∈ V ∨
    ∃ en ∈ q, lastId en.2 = x ∧ ∀ n, WalkLen edges s v n → en.1 ≤ n + 1

/-- The source is expanded or queued at distance zero. -/
def sourceOK (s : Nat) (V : Finset Nat) (q : List (Nat × List Nat)) : Prop :=
  s ∈ V ∨ ∃ en ∈ q, lastId en.2 = s ∧ en.1 = 0

theorem pqInsert_sorted {e : Nat × List Nat} :
    ∀ {q}, queueSorted q → queueSorted (pqInsert e q) := by
  intro q
  induction q with
  | nil =>
    intro _
    simp [pqInsert, queueSorted]
  | cons x xs ih =>
    intro hs
    rcases List.pairwise_cons.mp hs with ⟨hx, hxs⟩
    by_cases h : x.1 ≤ e.1
    · rw [pqInsert, if_pos h]
      refine List.pairwise_cons.mpr ⟨?_, ih hxs⟩
      intro b hb
      rcases mem_pqInsert.mp hb with rfl | hb
      · exact h
      · exact hx b hb
    · rw [pqInsert, if_neg h]
      refine List.pairwise_cons.mpr ⟨?_, hs⟩
      intro b hb
      rcases List.mem_cons.mp hb with rfl | hb
      · omega
      · exact le_trans (by omega) (hx b hb)

theorem foldl_pqInsert_sorted {f : Nat → Nat × List Nat} :
    ∀ (cs : List Nat) {q}, queueSorted q →
      queueSorted (cs.foldl (fun q c => pqInsert (f c) q) q) := by
  intro cs
  induction cs with
  | nil =>
    intro q hs
    exact hs
  | cons c cs ih =>
    intro q hs
    rw [List.foldl_cons]
    exact ih (pqInsert_sorted hs)

theorem visited_complete {edges : List DirectedEdge} {s : Nat} {V : Finset Nat}
    {q : List (Nat × List Nat)} (b : Nat)
    (hq : ∀ en ∈ q, b ≤ en.1)
    (hf : frontierOK edges s V q) (hs : sourceOK s V q) :
    ∀ {x n}, WalkLen edges s x n → n < b → x ∈ V := by
  intro x n hw
  induction hw with
  | zero =>
    intro hb
    rcases hs with h | ⟨en, hen, hlast, hd⟩
    · exact h
    · have := hq en hen
      omega
  | @succ v w n0 hw he ih =>
    intro hb
    have hv : v ∈ V := ih (by omega)
    have hchild : w ∈ children v edges := mem_children.mpr he
    rcases hf v hv w hchild with h | ⟨en, hen, hlast, hbound⟩
    · exact h
    · have h1 := hbound n0 hw
      have h2 := hq en hen
      omega

theorem dijkstraAux_correct {edges : List DirectedEdge} {s target : Nat} :
    ∀ (V : Finset Nat) (q : List (Nat × List Nat)),
      (∀ en ∈ q, entryOK edges s en) → queueSorted q → target ∉ V →
      frontierOK edges s V q → sourceOK s V q →
      (∃ nq, WalkLen edges s target nq) →
      isWalk edges (dijkstraAux edges target V q) s target ∧
        ∀ m, WalkLen edges s target m → (dijkstraAux edges target V q).length ≤ m + 1 := by
  intro V q
  induction V, q using dijkstraAux.induct edges target with
  | case1 visited =>
    intro hentry hsort htv hf hsrc hreach
    exfalso
    rcases hreach with ⟨nq, hw⟩
    exact htv (visited_complete (nq + 1)
      (fun en hen => absurd hen (List.not_mem_nil en)) hf hsrc hw (Nat.lt_succ_self nq))
  | case2 visited d path rest ht =>
    intro hentry hsort htv hf hsrc hreach
    have hhead : entryOK edges s (d, path) := hentry _ (List.mem_cons_self _ _)
    have hwalk : isWalk edges path s target := by
      have h1 := hhead.1
      rwa [ht] at h1
    have hres : dijkstraAux edges target visited ((d, path) :: rest) = path := by
      rw [dijkstraAux, if_pos ht]
    rw [hres]
    refine ⟨hwalk, ?_⟩
    intro m hm
    have hlen : path.length = d + 1 := hhead.2
    by_contra hcon
    push_neg at hcon
    have hmd : m < d := by omega
    have hball : ∀ en ∈ (d, path) :: rest, d ≤ en.1 := by
      intro en hen
      rcases List.mem_cons.mp hen with rfl | hen
      · exact le_refl d
      · exact (List.pairwise_cons.mp hsort).1 en hen
    exact htv (visited_complete d hball hf hsrc hm hmd)
  | case3 visited d path rest ht hv ih =>
    intro hentry hsort htv hf hsrc hreach
    have hres : dijkstraAux edges target visited ((d, path) :: rest) =
        dijkstraAux edges target visited rest := by
      rw [dijkstraAux, if_neg ht, if_pos hv]
    rw [hres]
    refine ih ?_ ?_ htv ?_ ?_ hreach
    · exact fun en hen => hentry en (List.mem_cons_of_mem _ hen)
    · exact (List.pairwise_cons.mp hsort).2
    · intro v hvm x hx
      rcases hf v hvm x hx with h | ⟨en, hen, hlast, hbound⟩
      · exact Or.inl h
      · rcases List.mem_cons.mp hen with rfl | hen
        · exact Or.inl (hlast ▸ hv)
        · exact Or.inr ⟨en, hen, hlast, hbound⟩
    · rcases hsrc with h | ⟨en, hen, hlast, hd0⟩
      · exact Or.inl h
      · rcases List.mem_cons.mp hen with rfl | hen
        · exact Or.inl (hlast ▸ hv)
        · exact Or.inr ⟨en, hen, hlast, hd0⟩
  | case4 visited d path rest ht hv ih =>
    intro hentry hsort htv hf hsrc hreach
    have hhead : entryOK edges s (d, path) := hentry _ (List.mem_cons_self _ _)
    have hball : ∀ en ∈ (d, path) :: rest, d ≤ en.1 := by
      intro en hen
      rcases List.mem_cons.mp hen with rfl | hen
      · exact le_refl d
      · exact (List.pairwise_cons.mp hsort).1 en hen
    have hdmin : ∀ n, WalkLen edges s (lastId path) n → d ≤ n := by
      intro n hn
      by_contra hcon
      push_neg at hcon
      exact hv (visited_complete d hball hf hsrc hn hcon)
    have hres : dijkstraAux edges target visited ((d, path) :: rest) =
        dijkstraAux edges target (insert (lastId path) visited)
          ((children (lastId path) edges).foldl
            (fun q c => pqInsert (d + 1, path ++ [c]) q) rest) := by
      rw [dijkstraAux, if_neg ht, if_neg hv]
    rw [hres]
    refine ih ?_ ?_ ?_ ?_ ?_ hreach
    · intro en hen
      rcases (mem_foldl_pqInsert _ _ _).mp hen with hen | ⟨c, hc, rfl⟩
      · exact hentry en (List.mem_cons_of_mem _ hen)
      · constructor
        · rw [lastId_append]
          exact isWalk_extend hhead.1 (mem_children.mp hc)
        · simp [hhead.2]
    · exact foldl_pqInsert_sorted _ (List.pairwise_cons.mp hsort).2
    · intro hc
      rcases Finset.mem_insert.mp hc with h | h
      · exact ht h.symm
      · exact htv h
    · intro v hvm x hx
      rcases Finset.mem_insert.mp hvm with rfl | hvm
      · refine Or.inr ⟨(d + 1, path ++ [x]), ?_, ?_, ?_⟩
        · exact (mem_foldl_pqInsert _ _ _).mpr (Or.inr ⟨x, hx, rfl⟩)
        · exact lastId_append
        · intro n hn
          have := hdmin n hn
          omega
      · rcases hf v hvm x hx with h | ⟨en, hen, hlast, hbound⟩
        · exact Or.inl (Finset.mem_insert_of_mem h)
        · rcases List.mem_cons.mp hen with rfl | hen
          · exact Or.inl (hlast ▸ Finset.mem_insert_self _ _)
          · exact Or.inr ⟨en, (mem_foldl_pqInsert _ _ _).mpr (Or.inl hen), hlast, hbound⟩
    · rcases hsrc with h | ⟨en, hen, hlast, hd0⟩
      · exact Or.inl (Finset.mem_insert_of_mem h)
      · rcases List.mem_cons.mp hen with rfl | hen
        · exact Or.inl (hlast ▸ Finset.mem_insert_self _ _)
        · exact Or.inr ⟨en, (mem_foldl_pqInsert _ _ _).mpr (Or.inl hen), hlast, hd0⟩

theorem dijkstraAux_sound {edges : List DirectedEdge} {s target : Nat} :
    ∀ (V : Finset Nat) (q : List (Nat × List Nat)),
      (∀ en ∈ q, entryOK edges s en) →
      dijkstraAux edges target V q = [] ∨
        isWalk edges (dijkstraAux edges target V q) s target := by
  intro V q
  induction V, q using dijkstraAux.induct edges target with
  | case1 visited =>
    intro _
    left
    rw [dijkstraAux]
  | case2 visited d path rest ht =>
    intro hentry
    right
    have hhead := (hentry _ (List.mem_cons_self _ _)).1
    rw [dijkstraAux, if_pos ht]
    rwa [ht] at hhead
  | case3 visited d path rest ht hv ih =>
    intro hentry
    rw [dijkstraAux, if_neg ht, if_pos hv]
    exact ih (fun en hen => hentry en (List.mem_cons_of_mem _ hen))
  | case4 visited d path rest ht hv ih =>
    intro hentry
    rw [dijkstraAux, if_neg ht, if_neg hv]
    refine ih ?_
    intro en hen
    rcases (mem_foldl_pqInsert _ _ _).mp hen with hen | ⟨c, hc, rfl⟩
    · exact hentry en (List.mem_cons_of_mem _ hen)
    · have hhead := hentry _ (List.mem_cons_self _ _)
      constructor
      · rw [lastId_append]
        exact isWalk_extend hhead.1 (mem_children.mp hc)
      · simp [hhead.2]

theorem dijkstraShortestPath_correct {edges : List DirectedEdge} {s target : Nat}
    (hreach : ∃ n, WalkLen edges s target n) :
    isWalk edges (dijkstraShortestPath s target edges) s target ∧
      ∀ m, WalkLen edges s target m →
        (dijkstraShortestPath s target edges).length ≤ m + 1 := by
  unfold dijkstraShortestPath
  refine dijkstraAux_correct ∅ [(0, [s])] ?_ ?_ ?_ ?_ ?_ hreach
  · intro en hen
    rcases List.mem_singleton.mp hen with rfl
    exact ⟨isWalk_singleton, rfl⟩
  · simp [queueSorted]
  · simp
  · intro v hv
    exact absurd hv (Finset.not_mem_empty v)
  · right
    exact ⟨(0, [s]), List.mem_singleton_self _, rfl, rfl⟩

theorem dijkstraShortestPath_sound {edges : List DirectedEdge} {s target : Nat} :
    dijkstraShortestPath s target edges = [] ∨
      isWalk edges (dijkstraShortestPath s target edges) s target := by
  unfold dijkstraShortestPath
  refine dijkstraAux_sound ∅ [(0, [s])] ?_
  intro en hen
  rcases List.mem_singleton.mp hen with rfl
  exact ⟨isWalk_singleton, rfl⟩

theorem dijkstraShortestPath_self {a : Nat} {edges : List DirectedEdge} :
    dijkstraShortestPath a a edges = [a] := by
  unfold dijkstraShortestPath
  rw [dijkstraAux, if_pos (show lastId [a] = a from rfl)]

theorem Search.bfsLoop_invariant {edges : List DirectedEdge} {s : Nat} :
    ∀ (visited : Finset Nat) (result : List Nat) (queue : List Nat),
      (∀ q ∈ queue, Relation.ReflTransGen (edgeStep edges) s q) →
      (∀ r ∈ result, r ∈ visited) → result.Nodup →
      (∀ r ∈ result, Relation.ReflTransGen (edgeStep edges) s r) →
      (Search.bfsLoop edges visited result queue).Nodup ∧
        ∀ v ∈ Search.bfsLoop edges visited result queue,
          Relation.ReflTransGen (edgeStep edges) s v := by
  intro visited result queue
  induction visited, result, queue using Search.bfsLoop.induct edges with
  | case1 visited result =>
    intro hq hrv hnd hrr
    rw [Search.bfsLoop]
    exact ⟨hnd, hrr⟩
  | case2 visited result current rest hcur ih =>
    intro hq hrv hnd hrr
    rw [Search.bfsLoop, if_pos hcur]
    exact ih (fun q hqm => hq q (List.mem_cons_of_mem _ hqm)) hrv hnd hrr
  | case3 visited result current rest hcur ih =>
    intro hq hrv hnd hrr
    rw [Search.bfsLoop, if_neg hcur]
    have hcr : Relation.ReflTransGen (edgeStep edges) s current :=
      hq current (List.mem_cons_self _ _)
    refine ih ?_ ?_ ?_ ?_
    · intro q hqm
      rcases List.mem_append.mp hqm with h | h
      · exact hq q (List.mem_cons_of_mem _ h)
      · exact Relation.ReflTransGen.tail hcr (Search.mem_children_search.mp h)
    · intro r hr
      rcases List.mem_append.mp hr with h | h
      · exact Finset.mem_insert_of_mem (hrv r h)
      · rcases List.mem_singleton.mp h with rfl
        exact Finset.mem_insert_self _ _
    · rw [List.nodup_append]
      refine ⟨hnd, List.nodup_singleton _, ?_⟩
      intro r hr hcon
      rcases List.mem_singleton.mp hcon with rfl
      exact hcur (hrv r hr)
    · intro r hr
      rcases List.mem_append.mp hr with h | h
      · exact hrr r h
      · rcases List.mem_singleton.mp h with rfl
        exact hcr

theorem Search.mazeLoop_none {edges : List DirectedEdge} {stack : List Nat}
    {visited : Finset Nat} {result : List Nat} (h : stack.getLast? = none) :
    Search.mazeLoop edges stack visited result = result := by
  rw [Search.mazeLoop]
  split
  · rfl
  · rename_i y hy
    rw [h] at hy
    cases hy

theorem Search.mazeLoop_some {edges : List DirectedEdge} {stack : List Nat}
    {visited : Finset Nat} {result : List Nat} {current : Nat}
    (h : stack.getLast? = some current) :
    Search.mazeLoop edges stack visited result =
      if current ∈ visited then Search.mazeLoop edges stack.dropLast visited result
      else Search.mazeLoop edges (stack.dropLast ++ Search.children current edges)
        (insert current visited) (result ++ [current]) := by
  rw [Search.mazeLoop]
  split
  · rename_i hy
    rw [h] at hy
    cases hy
  · rename_i y hy
    rw [h] at hy
    cases hy
    rfl

theorem Search.mazeLoop_invariant {edges : List DirectedEdge} {s : Nat} :
    ∀ (stack : List Nat) (visited : Finset Nat) (result : List Nat),
      (∀ q ∈ stack, Relation.ReflTransGen (edgeStep edges) s q) →
      (∀ r ∈ result, r ∈ visited) → result.Nodup →
      (∀ r ∈ result, Relation.ReflTransGen (edgeStep edges) s r) →
      (Search.mazeLoop edges stack visited result).Nodup ∧
        ∀ v ∈ Search.mazeLoop edges stack visited result,
          Relation.ReflTransGen (edgeStep edges) s v := by
  intro stack visited result
  induction stack, visited, result using Search.mazeLoop.induct edges with
  | case1 stack visited result hlast =>
    intro hq hrv hnd hrr
    rw [Search.mazeLoop_none hlast]
    exact ⟨hnd, hrr⟩
  | case2 stack visited result current hlast hcur ih =>
    intro hq hrv hnd hrr
    rw [Search.mazeLoop_some hlast, if_pos hcur]
    exact ih (fun q hqm => hq q (List.dropLast_subset _ hqm)) hrv hnd hrr
  | case3 stack visited result current hlast hcur ih =>
    intro hq hrv hnd hrr
    rw [Search.mazeLoop_some hlast, if_neg hcur]
    have hcr : Relation.ReflTransGen (edgeStep edges) s current :=
      hq current (mem_of_getLastQ hlast)
    refine ih ?_ ?_ ?_ ?_
    · intro q hqm
      rcases List.mem_append.mp hqm with h | h
      · exact hq q (List.dropLast_subset _ h)
      · exact Relation.ReflTransGen.tail hcr (Search.mem_children_search.mp h)
    · intro r hr
      rcases List.mem_append.mp hr with h | h
      · exact Finset.mem_insert_of_mem (hrv r h)
      · rcases List.mem_singleton.mp h with rfl
        exact Finset.mem_insert_self _ _
    · rw [List.nodup_append]
      refine ⟨hnd, List.nodup_singleton _, ?_⟩
      intro r hr hcon
      rcases List.mem_singleton.mp hcon with rfl
      exact hcur (hrv r hr)
    · intro r hr
      rcases List.mem_append.mp hr with h | h
      · exact hrr r h
      · rcases List.mem_singleton.mp h with rfl
        exact hcr

theorem Search.dfsLoop_none {edges : List DirectedEdge} {maxDepth : Nat}
    {stack : List (Nat × Nat)} {visited : Finset Nat} {result : List Nat}
    (h : stack.getLast? = none) :
    Search.dfsLoop edges maxDepth stack visited result = result := by
  rw [Search.dfsLoop]
  split
  · rfl
  · rename_i y hy
    rw [h] at hy
    cases hy

theorem Search.dfsLoop_some {edges : List DirectedEdge} {maxDepth : Nat}
    {stack : List (Nat × Nat)} {visited : Finset Nat} {result : List Nat}
    {entry : Nat × Nat} (h : stack.getLast? = some entry) :
    Search.dfsLoop edges maxDepth stack visited result =
      if entry.1 ∈ visited then Search.dfsLoop edges maxDepth stack.dropLast visited result
      else if entry.2 < maxDepth then
        Search.dfsLoop edges maxDepth
          (stack.dropLast ++ (Search.children entry.1 edges).map fun c => (c, entry.2 + 1))
          (insert entry.1 visited) (result ++ [entry.1])
      else Search.dfsLoop edges maxDepth stack.dropLast (insert entry.1 visited)
        (result ++ [entry.1]) := by
  rw [Search.dfsLoop]
  split
  · rename_i hy
    rw [h] at hy
    cases hy
  · rename_i y hy
    rw [h] at hy
    cases hy
    rfl

theorem Search.dfsLoop_invariant {edges : List DirectedEdge} {s : Nat} {maxDepth : Nat} :
    ∀ (stack : List (Nat × Nat)) (visited : Finset Nat) (result : List Nat),
      (∀ q ∈ stack, Relation.ReflTransGen (edgeStep edges) s q.1) →
      (∀ r ∈ result, r ∈ visited) → result.Nodup →
      (∀ r ∈ result, Relation.ReflTransGen (edgeStep edges) s r) →
      (Search.dfsLoop edges maxDepth stack visited result).Nodup ∧
        ∀ v ∈ Search.dfsLoop edges maxDepth stack visited result,
          Relation.ReflTransGen (edgeStep edges) s v := by
  intro stack visited result
  induction stack, visited, result using Search.dfsLoop.induct edges maxDepth with
  | case1 stack visited result hlast =>
    intro hq hrv hnd hrr
    rw [Search.dfsLoop_none hlast]
    exact ⟨hnd, hrr⟩
  | case2 stack visited result entry hlast hcur ih =>
    intro hq hrv hnd hrr
    rw [Search.dfsLoop_some hlast, if_pos hcur]
    exact ih (fun q hqm => hq q (List.dropLast_subset _ hqm)) hrv hnd hrr
  | case3 stack visited result entry hlast hcur hdep ih =>
    intro hq hrv hnd hrr
    rw [Search.dfsLoop_some hlast, if_neg hcur, if_pos hdep]
    have hcr : Relation.ReflTransGen (edgeStep edges) s entry.1 :=
      hq entry (mem_of_getLastQ hlast)
    refine ih ?_ ?_ ?_ ?_
    · intro q hqm
      rcases List.mem_append.mp hqm with h | h
      · exact hq q (List.dropLast_subset _ h)
      · rcases List.mem_map.mp h with ⟨c, hc, rfl⟩
        exact Relation.ReflTransGen.tail hcr (Search.mem_children_search.mp hc)
    · intro r hr
      rcases List.mem_append.mp hr with h | h
      · exact Finset.mem_insert_of_mem (hrv r h)
      · rcases List.mem_singleton.mp h with rfl
        exact Finset.mem_insert_self _ _
    · rw [List.nodup_append]
      refine ⟨hnd, List.nodup_singleton _, ?_⟩
      intro r hr hcon
      rcases List.mem_singleton.mp hcon with rfl
      exact hcur (hrv _ hr)
    · intro r hr
      rcases List.mem_append.mp hr with h | h
      · exact hrr r h
      · rcases List.mem_singleton.mp h with rfl
        exact hcr
  | case4 stack visited result entry hlast hcur hdep ih =>
    intro hq hrv hnd hrr
    rw [Search.dfsLoop_some hlast, if_neg hcur, if_neg hdep]
    have hcr : Relation.ReflTransGen (edgeStep edges) s entry.1 :=
      hq entry (mem_of_getLastQ hlast)
    refine ih ?_ ?_ ?_ ?_
    · intro q hqm
      exact hq q (List.dropLast_subset _ hqm)
    · intro r hr
      rcases List.mem_append.mp hr with h | h
      · exact Finset.mem_insert_of_mem (hrv r h)
      · rcases List.mem_singleton.mp h with rfl
        exact Finset.mem_insert_self _ _
    · rw [List.nodup_append]
      refine ⟨hnd, List.nodup_singleton _, ?_⟩
      intro r hr hcon
      rcases List.mem_singleton.mp hcon with rfl
      exact hcur (hrv _ hr)
    · intro r hr
      rcases List.mem_append.mp hr with h | h
      · exact hrr r h
      · rcases List.mem_singleton.mp h with rfl
        exact hcr

theorem mem_everything {edges : List DirectedEdge} {x : Nat} :
    x ∈ everything edges ↔ ∃ e ∈ edges, x = e.source ∨ x = e.target := by
  simp only [everything, mem_uniqueNumbers, List.mem_flatMap, List.mem_cons,
    List.mem_singleton, List.not_mem_nil, or_false]

theorem mem_related {id x : Nat} {edges : List DirectedEdge} :
    x ∈ related id edges ↔ x ∈ ancestors id edges ∨ x ∈ descendants id edges := by
  simp [related, mem_uniqueNumbers]

theorem not_mem_siblings_self {id : Nat} {edges : List DirectedEdge} :
    id ∉ siblings id edges := by
  intro h
  rw [siblings, mem_uniqueNumbers, List.mem_filter] at h
  simp at h

theorem mem_cousins {id x : Nat} {edges : List DirectedEdge} :
    x ∈ cousins id edges ↔ ∃ sib ∈ siblings id edges, x ∈ descendants sib edges := by
  simp [cousins, mem_uniqueNumbers, List.mem_flatMap]

theorem parents_absent {edges : List DirectedEdge} {id : Nat}
    (h : ∀ e ∈ edges, e.source ≠ id ∧ e.target ≠ id) : parents id edges = [] := by
  unfold parents
  have hf : edges.filter (fun e => e.target == id) = [] := by
    rw [List.filter_eq_nil_iff]
    intro e he
    simpa using (h e he).2
  rw [hf]
  rfl

theorem children_absent {edges : List DirectedEdge} {id : Nat}
    (h : ∀ e ∈ edges, e.source ≠ id ∧ e.target ≠ id) : children id edges = [] := by
  unfold children
  have hf : edges.filter (fun e => e.source == id) = [] := by
    rw [List.filter_eq_nil_iff]
    intro e he
    simpa using (h e he).1
  rw [hf]
  rfl

theorem searchChildren_absent {edges : List DirectedEdge} {id : Nat}
    (h : ∀ e ∈ edges, e.source ≠ id ∧ e.target ≠ id) : Search.children id edges = [] := by
  unfold Search.children
  have hf : edges.filter (fun e => e.source == id) = [] := by
    rw [List.filter_eq_nil_iff]
    intro e he
    simpa using (h e he).1
  rw [hf]
  rfl

theorem ancestors_absent {edges : List DirectedEdge} {id : Nat}
    (h : ∀ e ∈ edges, e.source ≠ id ∧ e.target ≠ id) : ancestors id edges = [] := by
  unfold ancestors
  rw [parents_absent h, worklistLoop_nil (show ([] : List Nat).getLast? = none from rfl)]

theorem descendants_absent {edges : List DirectedEdge} {id : Nat}
    (h : ∀ e ∈ edges, e.source ≠ id ∧ e.target ≠ id) : descendants id edges = [] := by
  unfold descendants
  rw [children_absent h, worklistLoop_nil (show ([] : List Nat).getLast? = none from rfl)]

theorem related_absent {edges : List DirectedEdge} {id : Nat}
    (h : ∀ e ∈ edges, e.source ≠ id ∧ e.target ≠ id) : related id edges = [] := by
  unfold related
  rw [ancestors_absent h, descendants_absent h]
  rfl

theorem sweepStep_absent {mode : Traversal} {id : Nat} {e : DirectedEdge}
    (h1 : e.source ≠ id) (h2 : e.target ≠ id) :
    sweepStep mode ({id} : Finset Nat) e = ({id} : Finset Nat) := by
  unfold sweepStep
  dsimp only
  have hc1 : ¬ ((mode = Traversal.ancestors ∨ mode = Traversal.web) ∧
      e.source ∉ ({id} : Finset Nat) ∧ e.target ∈ ({id} : Finset Nat)) := by
    rintro ⟨_, _, hmem⟩
    exact h2 (Finset.mem_singleton.mp hmem)
  rw [if_neg hc1]
  have hc2 : ¬ ((mode = Traversal.descendants ∨ mode = Traversal.web) ∧
      e.target ∉ ({id} : Finset Nat) ∧ e.source ∈ ({id} : Finset Nat)) := by
    rintro ⟨_, _, hmem⟩
    exact h1 (Finset.mem_singleton.mp hmem)
  rw [if_neg hc2]

theorem sweepOnce_absent {mode : Traversal} {edges : List DirectedEdge} {id : Nat}
    (h : ∀ e ∈ edges, e.source ≠ id ∧ e.target ≠ id) :
    sweepOnce mode edges ({id} : Finset Nat) = ({id} : Finset Nat) := by
  unfold sweepOnce
  induction edges with
  | nil => rfl
  | cons e t ih =>
    rw [List.foldl_cons, sweepStep_absent (h e (List.mem_cons_self _ _)).1
      (h e (List.mem_cons_self _ _)).2]
    exact ih fun f hf => h f (List.mem_cons_of_mem _ hf)

theorem traverse_absent {edges : List DirectedEdge} {id : Nat} {mode : Traversal}
    (h : ∀ e ∈ edges, e.source ≠ id ∧ e.target ≠ id) (hm : mode ≠ Traversal.tree) :
    traverse id edges mode = ∅ := by
  rw [traverse.eq_def, dif_neg hm, sweepLoop, if_pos (sweepOnce_absent h)]
  exact Finset.erase_singleton id

theorem traverse_tree_absent {edges : List DirectedEdge} {id : Nat}
    (h : ∀ e ∈ edges, e.source ≠ id ∧ e.target ≠ id) :
    traverse id edges Traversal.tree = ({id} : Finset Nat) := by
  rw [traverse.eq_def, dif_pos rfl]
  rw [traverse_absent h (by decide), traverse_absent h (by decide)]
  simp

theorem maze_absent {edges : List DirectedEdge} {id : Nat}
    (h : ∀ e ∈ edges, e.source ≠ id ∧ e.target ≠ id) : Search.maze id edges = [id] := by
  unfold Search.maze
  rw [Search.mazeLoop_some (show ([id] : List Nat).getLast? = some id from rfl),
    if_neg (Finset.not_mem_empty id)]
  rw [show ([id] : List Nat).dropLast = [] from rfl, searchChildren_absent h, List.nil_append]
  rw [Search.mazeLoop_none (show ([] : List Nat).getLast? = none from rfl)]
  rfl

theorem bfs_absent {edges : List DirectedEdge} {id : Nat}
    (h : ∀ e ∈ edges, e.source ≠ id ∧ e.target ≠ id) : Search.bfs id edges = [id] := by
  unfold Search.bfs
  rw [Search.bfsLoop, if_neg (Finset.not_mem_empty id), searchChildren_absent h]
  rw [show ([] : List Nat) ++ [] = [] from rfl, Search.bfsLoop]
  rfl

theorem dfs_absent {edges : List DirectedEdge} {id maxDepth : Nat}
    (h : ∀ e ∈ edges, e.source ≠ id ∧ e.target ≠ id) : Search.dfs id edges maxDepth = [id] := by
  unfold Search.dfs
  rw [Search.dfsLoop_some (show ([((id : Nat), (0 : Nat))]).getLast? = some (id, 0) from rfl),
    if_neg (Finset.not_mem_empty id)]
  by_cases hd : (0 : Nat) < maxDepth
  · rw [if_pos hd]
    rw [show ([((id : Nat), (0 : Nat))]).dropLast = [] from rfl, searchChildren_absent h]
    rw [show (([] : List (Nat × Nat)) ++ List.map (fun c => (c, 0 + 1)) [] = []) from rfl]
    rw [Search.dfsLoop_none (show ([] : List (Nat × Nat)).getLast? = none from rfl)]
    rfl
  · rw [if_neg hd]
    rw [show ([((id : Nat), (0 : Nat))]).dropLast = [] from rfl]
    rw [Search.dfsLoop_none (show ([] : List (Nat × Nat)).getLast? = none from rfl)]
    rfl

theorem worklistLoop_nodup (nbrs : Nat → List Nat) (U : Finset Nat)
    (hU : ∀ v, ∀ x ∈ nbrs v, x ∈ U) :
    ∀ queue acc, acc.Nodup → (worklistLoop nbrs U hU queue acc).Nodup := by
  intro queue acc
  induction queue, acc using worklistLoop.induct nbrs U hU with
  | case1 queue acc hq =>
    intro hnd
    rw [worklistLoop_nil hq]
    exact hnd
  | case2 queue acc nextId hq ih =>
    intro hnd
    rw [worklistLoop_cons hq]
    exact ih (nodup_addOnce hnd)

theorem nodup_oddNodes {edges : List DirectedEdge} : (oddNodes edges).Nodup :=
  List.Nodup.filter _ nodup_uniqueNumbers

theorem mem_oddNodes {edges : List DirectedEdge} {x : Nat} :
    x ∈ oddNodes edges ↔ x ∈ everything edges ∧ (related x edges).length % 2 = 1 := by
  simp [oddNodes, List.mem_filter]

theorem length_filter_bne {a : Nat} : ∀ {l : List Nat}, l.Nodup → a ∈ l →
    (l.filter fun x => x != a).length = l.length - 1 := by
  intro l
  induction l with
  | nil =>
    intro _ ha
    cases ha
  | cons x t ih =>
    intro h ha
    rcases List.nodup_cons.mp h with ⟨hx, ht⟩
    rcases List.mem_cons.mp ha with rfl | ha
    · rw [List.filter_cons, if_neg (by simp)]
      have hfilter : t.filter (fun y => y != a) = t := by
        rw [List.filter_eq_self]
        intro b hb
        simp only [bne_iff_ne, ne_eq, decide_eq_true_eq]
        intro hc
        exact hx (hc ▸ hb)
      rw [hfilter]
      simp
    · have hxa : (x != a) = true := by
        simp only [bne_iff_ne, ne_eq]
        rintro rfl
        exact hx ha
      rw [List.filter_cons, if_pos hxa]
      have hlen := ih ht ha
      have hpos : 0 < t.length := List.length_pos.mpr (List.ne_nil_of_mem ha)
      simp only [List.length_cons, hlen]
      omega

theorem length_oddPairs_aux {edges : List DirectedEdge} :
    ∀ (l : List Nat), (∀ x ∈ l, x ∈ oddNodes edges) →
      (l.flatMap fun id => ((oddNodes edges).filter fun otherId => otherId != id).map
        fun otherId => (id, otherId)).length = l.length * ((oddNodes edges).length - 1) := by
  intro l
  induction l with
  | nil =>
    intro _
    simp
  | cons x t ih =>
    intro hl
    rw [List.flatMap_cons, List.length_append, List.length_map,
      ih (fun y hy => hl y (List.mem_cons_of_mem _ hy)),
      length_filter_bne nodup_oddNodes (hl x (List.mem_cons_self _ _))]
    simp only [List.length_cons]
    ring

theorem length_postman {edges : List DirectedEdge} :
    (postman edges).length = (oddNodes edges).length * ((oddNodes edges).length - 1) := by
  unfold postman oddPairs
  rw [List.length_map]
  exact length_oddPairs_aux (oddNodes edges) (fun x hx => hx)

theorem dijkstra_mem_postman {edges : List DirectedEdge} {a b : Nat}
    (ha : a ∈ oddNodes edges) (hb : b ∈ oddNodes edges) (hab : b ≠ a) :
    dijkstraShortestPath a b edges ∈ postman edges := by
  unfold postman
  refine List.mem_map.mpr ⟨(a, b), ?_, rfl⟩
  unfold oddPairs
  refine List.mem_flatMap.mpr ⟨a, ha, ?_⟩
  refine List.mem_map.mpr ⟨b, ?_, rfl⟩
  rw [List.mem_filter]
  exact ⟨hb, by simpa using hab⟩

theorem isolatedNodes_eq_nil (edges : List DirectedEdge) : isolatedNodes edges = [] := by
  unfold isolatedNodes
  have hf : (everything edges).filter (fun id => (related id edges).length == 0) = [] := by
    rw [List.filter_eq_nil_iff]
    intro id hid
    rcases mem_everything.mp hid with ⟨e, he, h | h⟩
    · have hmem : e.target ∈ related id edges :=
        mem_related.mpr (Or.inr (mem_descendants.mpr
          (Relation.TransGen.single ⟨e, he, h.symm, rfl⟩)))
      simp only [beq_iff_eq, List.length_eq_zero]
      intro hc
      rw [hc] at hmem
      exact List.not_mem_nil _ hmem
    · have hmem : e.source ∈ related id edges :=
        mem_related.mpr (Or.inl (mem_ancestors.mpr
          (Relation.TransGen.single ⟨e, he, rfl, h.symm⟩)))
      simp only [beq_iff_eq, List.length_eq_zero]
      intro hc
      rw [hc] at hmem
      exact List.not_mem_nil _ hmem
  rw [hf]
  rfl

theorem mem_ancestorsAndSelf_self {id : Nat} {edges : List DirectedEdge} :
    id ∈ ancestorsAndSelf id edges :=
  mem_uniqueNumbers.mpr (List.mem_append_right _ (List.mem_singleton_self id))

theorem mem_descendantsAndSelf_self {id : Nat} {edges : List DirectedEdge} :
    id ∈ descendantsAndSelf id edges :=
  mem_uniqueNumbers.mpr (List.mem_append_left _ (List.mem_singleton_self id))

theorem mem_parentsAndSelf_self {id : Nat} {edges : List DirectedEdge} :
    id ∈ parentsAndSelf id edges :=
  mem_uniqueNumbers.mpr (List.mem_append_left _ (List.mem_singleton_self id))

theorem mem_relatedAndSelf_self {id : Nat} {edges : List DirectedEdge} :
    id ∈ relatedAndSelf id edges :=
  mem_uniqueNumbers.mpr (List.mem_append_right _ (List.mem_singleton_self id))

theorem mem_cousinsAndSelf_self {id : Nat} {edges : List DirectedEdge} :
    id ∈ cousinsAndSelf id edges :=
  mem_uniqueNumbers.mpr (List.mem_append_right _ (List.mem_singleton_self id))

theorem mem_siblingsAndSelf_self {id : Nat} {edges : List DirectedEdge} :
    id ∈ siblingsAndSelf id edges :=
  mem_uniqueNumbers.mpr (List.mem_append_right _ (List.mem_singleton_self id))

theorem mem_childrenAndSelf_self {id : Nat} {edges : List DirectedEdge} :
    id ∈ childrenAndSelf id edges :=
  mem_uniqueNumbers.mpr (List.mem_append_right _ (List.mem_singleton_self id))

theorem cycleLoop_nil {edges : List DirectedEdge} {visited : Finset Nat}
    {h : ([] : List Nat).Nodup ∧ ∀ v ∈ ([] : List Nat), v ∉ visited} :
    cycleLoop edges [] visited h = some visited := by
  rw [cycleLoop]

theorem cycleLoop_cons_none {edges : List DirectedEdge} {current : Nat} {rest : List Nat}
    {visited : Finset Nat} {h : (current :: rest).Nodup ∧ ∀ v ∈ current :: rest, v ∉ visited}
    (hadd : addChildren (insert current visited) rest (related current edges) = none) :
    cycleLoop edges (current :: rest) visited h = none := by
  rw [cycleLoop]
  split
  · rfl
  · rename_i st hst
    rw [hadd] at hst
    cases hst

theorem cycleLoop_cons_some {edges : List DirectedEdge} {current : Nat} {rest : List Nat}
    {visited : Finset Nat} {h : (current :: rest).Nodup ∧ ∀ v ∈ current :: rest, v ∉ visited}
    {stackNew : List Nat}
    (hadd : addChildren (insert current visited) rest (related current edges) = some stackNew)
    (h2 : stackNew.Nodup ∧ ∀ v ∈ stackNew, v ∉ insert current visited) :
    cycleLoop edges (current :: rest) visited h =
      cycleLoop edges stackNew (insert current visited) h2 := by
  rw [cycleLoop]
  split
  · rename_i hst
    rw [hadd] at hst
    cases hst
  · rename_i st hst
    rw [hadd] at hst
    cases hst
    rfl

/-- C1: for every edge list and pair of vertices, when the target is
reachable from the source along directed edges, `dijkstraShortestPath`
returns a sequence that starts at the source, ends at the target, whose
every consecutive pair is a directed edge of the list, and whose hop count
is minimal among all such sequences; and on equal endpoints it returns the
one-element path. -/
theorem claim_C1 (source target : Nat) (edges : List DirectedEdge)
    (a : Nat) (edgesA : List DirectedEdge) (q : List Nat) :
    dijkstraShortestPath a a edgesA = [a] ∧
      (isWalk edges q source target →
        isWalk edges (dijkstraShortestPath source target edges) source target ∧
          ∀ r, isWalk edges r source target →
            (dijkstraShortestPath source target edges).length ≤ r.length) := by
  refine ⟨dijkstraShortestPath_self, ?_⟩
  intro hq
  rcases isWalk_walkLen hq with ⟨n, hn, hlen⟩
  obtain ⟨hwalk, hmin⟩ := dijkstraShortestPath_correct ⟨n, hn⟩
  refine ⟨hwalk, ?_⟩
  intro r hr
  rcases isWalk_walkLen hr with ⟨m, hm, hlenr⟩
  rw [hlenr]
  exact hmin m hm

/-- Witness for C1 at a concrete graph. -/
theorem claim_C1_witness :
    isWalk [⟨1,2⟩,⟨2,3⟩,⟨1,4⟩] [1,2,3] 1 3 ∧
      dijkstraShortestPath 7 7 [] = [7] ∧
        (isWalk [⟨1,2⟩,⟨2,3⟩,⟨1,4⟩]
            (dijkstraShortestPath 1 3 [⟨1,2⟩,⟨2,3⟩,⟨1,4⟩]) 1 3 ∧
          ∀ r, isWalk [⟨1,2⟩,⟨2,3⟩,⟨1,4⟩] r 1 3 →
            (dijkstraShortestPath 1 3 [⟨1,2⟩,⟨2,3⟩,⟨1,4⟩]).length ≤ r.length) :=
  ⟨by decide, (claim_C1 1 3 [⟨1,2⟩,⟨2,3⟩,⟨1,4⟩] 7 [] [1,2,3]).1,
    (claim_C1 1 3 [⟨1,2⟩,⟨2,3⟩,⟨1,4⟩] 7 [] [1,2,3]).2 (by decide)⟩

/-- C2 counterexample: on the one-edge self-loop graph the fixed-point
sweep `traverse` returns the empty set while the worklist `ancestors`
returns the queried vertex itself, so the two disagree. -/
theorem claim_C2_counterexample :
    traverse 1 [⟨1,1⟩] Traversal.ancestors = (∅ : Finset Nat) ∧
      ancestors 1 [⟨1,1⟩] = [1] := by
  constructor
  · ext x
    simp only [Finset.not_mem_empty, iff_false]
    intro hx
    rcases mem_traverse_ancestors.mp hx with ⟨hne, hr⟩
    rcases Relation.ReflTransGen.cases_head hr with heq | ⟨c, hstep, _⟩
    · exact hne heq
    · rcases hstep with ⟨e, he, hs, _⟩
      rcases List.mem_singleton.mp he with rfl
      exact hne hs.symm
  · simp [ancestors, worklistLoop_cons, worklistLoop_nil, parents, uniqueNumbers, uniqueAux,
      addOnce]

/-- C2 amended: the fixed-point sweep and the worklist queries agree up to
the queried vertex itself: `traverse` equals the worklist result with `id`
removed, on every input; they differ only in that the worklist result
keeps `id` when `id` lies on a directed cycle. -/
theorem claim_C2_amended (id : Nat) (edges : List DirectedEdge) :
    traverse id edges Traversal.ancestors = ((ancestors id edges).toFinset).erase id ∧
      traverse id edges Traversal.descendants = ((descendants id edges).toFinset).erase id := by
  constructor
  · ext x
    rw [mem_traverse_ancestors, Finset.mem_erase, List.mem_toFinset, mem_ancestors]
    constructor
    · rintro ⟨hne, hr⟩
      rcases Relation.reflTransGen_iff_eq_or_transGen.mp hr with heq | ht
      · exact absurd heq.symm hne
      · exact ⟨hne, ht⟩
    · rintro ⟨hne, ht⟩
      exact ⟨hne, ht.to_reflTransGen⟩
  · ext x
    rw [mem_traverse_descendants, Finset.mem_erase, List.mem_toFinset, mem_descendants]
    constructor
    · rintro ⟨hne, hr⟩
      rcases Relation.reflTransGen_iff_eq_or_transGen.mp hr with heq | ht
      · exact absurd heq hne
      · exact ⟨hne, ht⟩
    · rintro ⟨hne, ht⟩
      exact ⟨hne, ht.to_reflTransGen⟩

/-- C3: evaluation of the code at the failing input of the specification
scenario: on the acyclic edge list `[(1,2),(2,3),(1,4)]` the `hasCycle`
of the source returns `true`, because it walks `related` - the transitive
ancestor and descendant sets - as if they were direct neighbours. -/
theorem claim_C3 : hasCycle [⟨1,2⟩,⟨2,3⟩,⟨1,4⟩] = true := by
  have hrel1 : related 1 [⟨1,2⟩,⟨2,3⟩,⟨1,4⟩] = [4,2,3] := by
    simp [related, ancestors, descendants, worklistLoop_cons, worklistLoop_nil, parents, children,
      uniqueNumbers, uniqueAux, addOnce]
  have hrel4 : related 4 [⟨1,2⟩,⟨2,3⟩,⟨1,4⟩] = [1] := by
    simp [related, ancestors, descendants, worklistLoop_cons, worklistLoop_nil, parents, children,
      uniqueNumbers, uniqueAux, addOnce]
  have hrel2 : related 2 [⟨1,2⟩,⟨2,3⟩,⟨1,4⟩] = [1,3] := by
    simp [related, ancestors, descendants, worklistLoop_cons, worklistLoop_nil, parents, children,
      uniqueNumbers, uniqueAux, addOnce]
  have hadd1 : addChildren (insert 1 ∅) [] (related 1 [⟨1,2⟩,⟨2,3⟩,⟨1,4⟩]) = some [4,2,3] := by
    rw [hrel1]
    decide
  have hadd2 : addChildren (insert 4 (insert 1 ∅)) [2,3]
      (related 4 [⟨1,2⟩,⟨2,3⟩,⟨1,4⟩]) = some [2,3] := by
    rw [hrel4]
    decide
  have hadd3 : addChildren (insert 2 (insert 4 (insert 1 ∅))) [3]
      (related 2 [⟨1,2⟩,⟨2,3⟩,⟨1,4⟩]) = none := by
    rw [hrel2]
    decide
  have hl1 : ∀ hp, cycleLoop [⟨1,2⟩,⟨2,3⟩,⟨1,4⟩] [1] ∅ hp = none := by
    intro hp
    rw [cycleLoop_cons_some hadd1 (by decide), cycleLoop_cons_some hadd2 (by decide),
      cycleLoop_cons_none hadd3]
  unfold hasCycle
  rw [show everything [⟨1,2⟩,⟨2,3⟩,⟨1,4⟩] = [1,2,3,4] from rfl]
  rw [cycleOuter, dif_neg (Finset.not_mem_empty 1), hl1]

/-- C4: for every vertex and finite edge list - cyclic graphs, self-loops
and duplicate edges included - the worklist `ancestors` and `descendants`
are total functions (their loops are defined by well-founded recursion,
carried by the visited check on pushes) and return duplicate-free lists
drawn from the finite source and target vertex sets of the edge list. -/
theorem claim_C4 (id : Nat) (edges : List DirectedEdge) :
    (ancestors id edges).Nodup ∧ (∀ x ∈ ancestors id edges, x ∈ sourcesFin edges) ∧
      (descendants id edges).Nodup ∧ ∀ x ∈ descendants id edges, x ∈ targetsFin edges :=
  ⟨worklistLoop_nodup _ _ _ _ _ List.nodup_nil, ancestors_subset_sources,
    worklistLoop_nodup _ _ _ _ _ List.nodup_nil, descendants_subset_targets⟩

/-- Witness for C4 at a concrete cyclic graph. -/
theorem claim_C4_witness :
    (ancestors 1 [⟨1,1⟩]).Nodup ∧ 1 ∈ sourcesFin [⟨1,1⟩] :=
  ⟨(claim_C4 1 [⟨1,1⟩]).1, (claim_C4 1 [⟨1,1⟩]).2.1 1 (by
    simp [ancestors, worklistLoop_cons, worklistLoop_nil, parents, uniqueNumbers, uniqueAux,
      addOnce])⟩

/-- C5 counterexample: in the `tree` mode the returned set does contain
the queried vertex. -/
theorem claim_C5_counterexample : 1 ∈ traverse 1 [] Traversal.tree := by
  rw [traverse.eq_def, dif_pos rfl]
  exact Finset.mem_insert_self _ _

/-- C5 amended: the set returned by `traverse` excludes the queried vertex
in the `ancestors`, `descendants` and `web` modes, but contains it in the
`tree` mode. -/
theorem claim_C5_amended (id : Nat) (edges : List DirectedEdge) :
    id ∉ traverse id edges Traversal.ancestors ∧
      id ∉ traverse id edges Traversal.descendants ∧
      id ∉ traverse id edges Traversal.web ∧
      id ∈ traverse id edges Traversal.tree := by
  refine ⟨?_, ?_, ?_, ?_⟩
  · rw [traverse.eq_def, dif_neg (by decide : ¬ Traversal.ancestors = Traversal.tree)]
    exact Finset.not_mem_erase _ _
  · rw [traverse.eq_def, dif_neg (by decide : ¬ Traversal.descendants = Traversal.tree)]
    exact Finset.not_mem_erase _ _
  · rw [traverse.eq_def, dif_neg (by decide : ¬ Traversal.web = Traversal.tree)]
    exact Finset.not_mem_erase _ _
  · rw [traverse.eq_def, dif_pos rfl]
    exact Finset.mem_insert_self _ _

/-- Witness for C5 at a concrete graph. -/
theorem claim_C5_witness :
    1 ∉ traverse 1 [⟨1,2⟩] Traversal.ancestors ∧
      1 ∉ traverse 1 [⟨1,2⟩] Traversal.descendants ∧
      1 ∉ traverse 1 [⟨1,2⟩] Traversal.web ∧
      1 ∈ traverse 1 [⟨1,2⟩] Traversal.tree :=
  claim_C5_amended 1 [⟨1,2⟩]

/-- C6 counterexample: the queried vertex can appear in its own
relationship sets: on a self-loop it is its own ancestor, and even without
any cycle it can be its own cousin. -/
theorem claim_C6_counterexample :
    1 ∈ ancestors 1 [⟨1,1⟩] ∧ 2 ∈ cousins 2 [⟨1,2⟩,⟨1,3⟩,⟨3,2⟩] := by
  constructor
  · exact mem_ancestors.mpr
      (Relation.TransGen.single ⟨⟨1,1⟩, List.mem_singleton_self _, rfl, rfl⟩)
  · refine mem_cousins.mpr ⟨3, by decide, ?_⟩
    exact mem_descendants.mpr
      (Relation.TransGen.single ⟨⟨3,2⟩, by decide, rfl, rfl⟩)

/-- C6 amended: `siblings` never contains the queried vertex; the `AndSelf`
variants always do; `ancestors`, `descendants` and `related` contain the
queried vertex exactly when it lies on a directed cycle, so they exclude it
whenever it does not; and `cousins` excludes it exactly when no sibling
reaches it through directed edges. -/
theorem claim_C6_amended (v : Nat) (edges : List DirectedEdge) :
    v ∉ siblings v edges ∧
      (v ∈ relatedAndSelf v edges ∧ v ∈ ancestorsAndSelf v edges ∧
        v ∈ descendantsAndSelf v edges ∧ v ∈ cousinsAndSelf v edges ∧
        v ∈ siblingsAndSelf v edges) ∧
      (¬ Relation.TransGen (edgeStep edges) v v →
        v ∉ ancestors v edges ∧ v ∉ descendants v edges ∧ v ∉ related v edges) ∧
      ((¬ ∃ sib ∈ siblings v edges, v ∈ descendants sib edges) → v ∉ cousins v edges) := by
  refine ⟨not_mem_siblings_self, ⟨mem_relatedAndSelf_self, mem_ancestorsAndSelf_self,
    mem_descendantsAndSelf_self, mem_cousinsAndSelf_self, mem_siblingsAndSelf_self⟩, ?_, ?_⟩
  · intro hcyc
    refine ⟨fun hc => hcyc (mem_ancestors.mp hc), fun hc => hcyc (mem_descendants.mp hc), ?_⟩
    intro hc
    rcases mem_related.mp hc with hc | hc
    · exact hcyc (mem_ancestors.mp hc)
    · exact hcyc (mem_descendants.mp hc)
  · intro hno hc
    exact hno (mem_cousins.mp hc)

/-- Witness for C6 at a concrete acyclic graph. -/
theorem claim_C6_witness :
    5 ∉ siblings 5 [⟨1,2⟩] ∧ 5 ∉ ancestors 5 [⟨1,2⟩] ∧ 5 ∉ descendants 5 [⟨1,2⟩] ∧
      5 ∉ related 5 [⟨1,2⟩] ∧ 5 ∉ cousins 5 [⟨1,2⟩] := by
  have habs : ∀ e ∈ [(⟨1,2⟩ : DirectedEdge)], e.source ≠ 5 ∧ e.target ≠ 5 := by decide
  have hnt : ¬ Relation.TransGen (edgeStep [⟨1,2⟩]) 5 5 := by
    intro h
    have hmem := mem_ancestors.mpr h
    rw [ancestors_absent habs] at hmem
    exact List.not_mem_nil _ hmem
  have hns : ¬ ∃ sib ∈ siblings 5 [(⟨1,2⟩ : DirectedEdge)], (5 : Nat) ∈ descendants sib [⟨1,2⟩] := by
    rintro ⟨sib, hsib, _⟩
    have hsg : siblings 5 [(⟨1,2⟩ : DirectedEdge)] = [] := by decide
    rw [hsg] at hsib
    exact List.not_mem_nil _ hsib
  obtain ⟨h1, _, h3, h4⟩ := claim_C6_amended 5 [⟨1,2⟩]
  exact ⟨h1, (h3 hnt).1, (h3 hnt).2.1, (h3 hnt).2.2, h4 hns⟩

/-- C7 counterexample: a traversal started at a vertex absent from the
edge list is not empty - it contains the start vertex. -/
theorem claim_C7_counterexample : Search.bfs 5 [⟨1,2⟩] ≠ [] := by
  rw [bfs_absent (by decide)]
  simp

/-- C7 amended: the engine is total with empty results for the
relationship queries and the non-tree `traverse` modes on a vertex that
appears in no edge; the walk functions `maze`, `bfs` and `dfs` instead
return the one-element list holding the start vertex, and the `tree` mode
returns the singleton of the queried vertex; `dijkstraShortestPath` with
an unreachable target returns the empty sequence. -/
theorem claim_C7_amended (id maxDepth : Nat) (edges : List DirectedEdge)
    (habs : ∀ e ∈ edges, e.source ≠ id ∧ e.target ≠ id) :
    parents id edges = [] ∧ children id edges = [] ∧ ancestors id edges = [] ∧
      descendants id edges = [] ∧ related id edges = [] ∧
      traverse id edges Traversal.ancestors = ∅ ∧
      traverse id edges Traversal.descendants = ∅ ∧
      traverse id edges Traversal.web = ∅ ∧
      traverse id edges Traversal.tree = {id} ∧
      Search.maze id edges = [id] ∧ Search.bfs id edges = [id] ∧
      Search.dfs id edges maxDepth = [id] ∧
      ∀ s t, ¬ (∃ n, WalkLen edges s t n) → dijkstraShortestPath s t edges = [] := by
  refine ⟨parents_absent habs, children_absent habs, ancestors_absent habs,
    descendants_absent habs, related_absent habs,
    traverse_absent habs (by decide), traverse_absent habs (by decide),
    traverse_absent habs (by decide), traverse_tree_absent habs,
    maze_absent habs, bfs_absent habs, dfs_absent habs, ?_⟩
  intro s t hno
  rcases dijkstraShortestPath_sound with h | h
  · exact h
  · exfalso
    rcases isWalk_walkLen h with ⟨n, hn, _⟩
    exact hno ⟨n, hn⟩

/-- Witness for C7 at a concrete graph and absent vertex. -/
theorem claim_C7_witness :
    parents 5 [⟨1,2⟩] = [] ∧ children 5 [⟨1,2⟩] = [] ∧ ancestors 5 [⟨1,2⟩] = [] ∧
      descendants 5 [⟨1,2⟩] = [] ∧ related 5 [⟨1,2⟩] = [] ∧
      traverse 5 [⟨1,2⟩] Traversal.ancestors = ∅ ∧
      traverse 5 [⟨1,2⟩] Traversal.descendants = ∅ ∧
      traverse 5 [⟨1,2⟩] Traversal.web = ∅ ∧
      traverse 5 [⟨1,2⟩] Traversal.tree = {5} ∧
      Search.maze 5 [⟨1,2⟩] = [5] ∧ Search.bfs 5 [⟨1,2⟩] = [5] ∧
      Search.dfs 5 [⟨1,2⟩] 3 = [5] ∧
      dijkstraShortestPath 5 1 [⟨1,2⟩] = [] := by
  have hno : ¬ (∃ n, WalkLen [(⟨1,2⟩ : DirectedEdge)] 5 1 n) := by
    rintro ⟨n, hw⟩
    cases hw with
    | succ hw2 he =>
      rcases he with ⟨e, hem, hs, ht⟩
      rcases List.mem_singleton.mp hem with rfl
      exact absurd ht (by decide)
  obtain ⟨h1, h2, h3, h4, h5, h6, h7, h8, h9, h10, h11, h12, h13⟩ :=
    claim_C7_amended 5 3 [⟨1,2⟩] (by decide)
  exact ⟨h1, h2, h3, h4, h5, h6, h7, h8, h9, h10, h11, h12, h13 5 1 hno⟩

/-- C8 counterexample: the walk functions follow `children` only: a vertex
reachable through a parent edge under the undirected reading is not
visited. -/
theorem claim_C8_counterexample :
    Relation.ReflTransGen
        (fun a b => edgeStep [⟨1,2⟩] a b ∨ edgeStep [⟨1,2⟩] b a) 2 1 ∧
      1 ∉ Search.bfs 2 [⟨1,2⟩] := by
  constructor
  · exact Relation.ReflTransGen.single
      (Or.inr ⟨⟨1,2⟩, List.mem_singleton_self _, rfl, rfl⟩)
  · have hb : Search.bfs 2 [⟨1,2⟩] = [2] := by
      simp [Search.bfs, Search.bfsLoop, Search.children]
    rw [hb]
    decide

/-- C8 amended: `maze`, `bfs` and `dfs` use directed adjacency - the
neighbours of a vertex are its `children` only - so every visited vertex
is reachable from the start along directed edges, and each vertex appears
at most once in the returned list. -/
theorem claim_C8_amended (s maxDepth : Nat) (edges : List DirectedEdge) :
    ((Search.maze s edges).Nodup ∧
      ∀ v ∈ Search.maze s edges, Relation.ReflTransGen (edgeStep edges) s v) ∧
    ((Search.bfs s edges).Nodup ∧
      ∀ v ∈ Search.bfs s edges, Relation.ReflTransGen (edgeStep edges) s v) ∧
    ((Search.dfs s edges maxDepth).Nodup ∧
      ∀ v ∈ Search.dfs s edges maxDepth, Relation.ReflTransGen (edgeStep edges) s v) := by
  refine ⟨?_, ?_, ?_⟩
  · unfold Search.maze
    refine Search.mazeLoop_invariant _ _ _ ?_ ?_ ?_ ?_
    · intro q hq
      rcases List.mem_singleton.mp hq with rfl
      exact Relation.ReflTransGen.refl
    · intro r hr
      exact absurd hr (List.not_mem_nil r)
    · exact List.nodup_nil
    · intro r hr
      exact absurd hr (List.not_mem_nil r)
  · unfold Search.bfs
    refine Search.bfsLoop_invariant _ _ _ ?_ ?_ ?_ ?_
    · intro q hq
      rcases List.mem_singleton.mp hq with rfl
      exact Relation.ReflTransGen.refl
    · intro r hr
      exact absurd hr (List.not_mem_nil r)
    · exact List.nodup_nil
    · intro r hr
      exact absurd hr (List.not_mem_nil r)
  · unfold Search.dfs
    refine Search.dfsLoop_invariant _ _ _ ?_ ?_ ?_ ?_
    · intro q hq
      rcases List.mem_singleton.mp hq with rfl
      exact Relation.ReflTransGen.refl
    · intro r hr
      exact absurd hr (List.not_mem_nil r)
    · exact List.nodup_nil
    · intro r hr
      exact absurd hr (List.not_mem_nil r)

/-- Witness for C8 at a concrete graph. -/
theorem claim_C8_witness :
    (Search.maze 1 [⟨1,2⟩]).Nodup ∧
      Relation.ReflTransGen (edgeStep [⟨1,2⟩]) 1 2 := by
  have hm : Search.maze 1 [⟨1,2⟩] = [1, 2] := by
    simp [Search.maze, Search.mazeLoop_some, Search.mazeLoop_none, Search.children]
  refine ⟨(claim_C8_amended 1 0 [⟨1,2⟩]).1.1, ?_⟩
  refine (claim_C8_amended 1 0 [⟨1,2⟩]).1.2 2 ?_
  rw [hm]
  decide

/-- C9 counterexample: on a single edge both endpoints have odd degree,
giving one unordered pair, but `postman` returns two paths - one per
ordered pair. -/
theorem claim_C9_counterexample :
    oddNodes [⟨1,2⟩] = [1, 2] ∧ (postman [⟨1,2⟩]).length = 2 := by
  have h1 : related 1 [⟨1,2⟩] = [2] := by
    simp [related, ancestors, descendants, worklistLoop_cons, worklistLoop_nil, parents, children,
      uniqueNumbers, uniqueAux, addOnce]
  have h2 : related 2 [⟨1,2⟩] = [1] := by
    simp [related, ancestors, descendants, worklistLoop_cons, worklistLoop_nil, parents, children,
      uniqueNumbers, uniqueAux, addOnce]
  have hodd : oddNodes [⟨1,2⟩] = [1, 2] := by
    simp [oddNodes, everything, uniqueNumbers, uniqueAux, h1, h2]
  refine ⟨hodd, ?_⟩
  rw [length_postman, hodd]
  decide

/-- C9 amended: `postman` returns exactly one shortest path per ordered
pair of distinct odd-degree vertices: its length is `k * (k - 1)` for `k`
odd-degree vertices, and the path between every ordered pair of distinct
odd-degree vertices occurs in it. -/
theorem claim_C9_amended (edges : List DirectedEdge) :
    (postman edges).length = (oddNodes edges).length * ((oddNodes edges).length - 1) ∧
      ∀ a b, a ∈ oddNodes edges → b ∈ oddNodes edges → b ≠ a →
        dijkstraShortestPath a b edges ∈ postman edges :=
  ⟨length_postman, fun a b ha hb hab => dijkstra_mem_postman ha hb hab⟩

/-- Witness for C9 at a concrete graph. -/
theorem claim_C9_witness :
    (postman [⟨1,2⟩]).length = (oddNodes [⟨1,2⟩]).length * ((oddNodes [⟨1,2⟩]).length - 1) ∧
      dijkstraShortestPath 1 2 [⟨1,2⟩] ∈ postman [⟨1,2⟩] := by
  have h1 : related 1 [⟨1,2⟩] = [2] := by
    simp [related, ancestors, descendants, worklistLoop_cons, worklistLoop_nil, parents, children,
      uniqueNumbers, uniqueAux, addOnce]
  have h2 : related 2 [⟨1,2⟩] = [1] := by
    simp [related, ancestors, descendants, worklistLoop_cons, worklistLoop_nil, parents, children,
      uniqueNumbers, uniqueAux, addOnce]
  have hodd : oddNodes [⟨1,2⟩] = [1, 2] := by
    simp [oddNodes, everything, uniqueNumbers, uniqueAux, h1, h2]
  refine ⟨(claim_C9_amended [⟨1,2⟩]).1, ?_⟩
  refine (claim_C9_amended [⟨1,2⟩]).2 1 2 ?_ ?_ (by decide)
  · rw [hodd]
    decide
  · rw [hodd]
    decide

/-- C10: `isolatedNodes` always returns the empty list: every vertex of
`everything` occurs in some edge, so its `related` set is nonempty and the
filter keeps nothing. -/
theorem claim_C10 (edges : List DirectedEdge) : isolatedNodes edges = [] :=
  isolatedNodes_eq_nil edges
